import Mathlib

/-!
Verification of the `logmerge` package.

A shallow embedding of `logmerge.go` (package `logmerge`): a multi-source,
time-ordered line merge engine with a secondary concurrent ("quick") mode.

Modelling conventions:
* A scanned line (`scanner.Bytes()`, newline stripped) is a `Line := String`.
* Go `int64` timestamps are `Int` (no arithmetic is performed on them, so no
  overflow modelling is needed).
* Go `error` values supplied by the strategies are `Option String`
  (`none` = Go `nil`).
* Per §6 of the design, opening / gzip-wrapping the byte streams and the
  line-splitting mechanics are external collaborators: a source is modelled
  as the list of lines its scanner yields, and the scanner itself never
  fails (`scanner.Err() == nil`).  The destination sink is modelled as the
  list of written-and-flushed records (each written record is terminated by
  `"\n"` in the code; we keep the records themselves).
* The ordered merge additionally records, next to each written line, the
  `timestamp` field of the cursor it was popped from — a ghost value used
  only to state ordering properties; the byte output is the second
  components.
-/

namespace Logmerge

abbrev Line := String

/-- `Action` defined the read log behaviour (Go constants `NOP`, `SKIP`, `STOP`). -/
inductive Action where
  | nop
  | skip
  | stop
deriving DecidableEq, Repr

/-- `TimeHandler = func([]byte) (int64, Action, error)`. -/
abbrev TimeHandler := Line → Int × Action × Option String

/-- `FilterHandler = func(string, []byte) ([]byte, Action, error)`. -/
abbrev FilterHandler := String → Line → Line × Action × Option String

/-- The `fileReader` struct: one cursor over a line stream.  The
`scanner` field becomes the list of not-yet-scanned lines. -/
structure FileReader where
  filename : String
  stream : List Line
  timestamp : Int
  line : Line
  eof : Bool
  getTime : TimeHandler
  filter : Option FilterHandler

instance : Inhabited FileReader :=
  ⟨⟨"", [], 0, "", false, fun _ => (0, .nop, none), none⟩⟩

/-- The body of `fileReader.readLine`'s scan loop.  The loop only moves the
scanner forward until a line is accepted, so it is recursion over the list
of unscanned lines; all other fields of `fu` are untouched while looping. -/
def readLineAux (fu : FileReader) : List Line → FileReader × Option String
  | [] =>
      -- EOF
      ({ fu with stream := [], eof := true }, none)
  | line :: rest =>
      match fu.getTime line with
      | (tm, act, err) =>
        if act = .skip then readLineAux fu rest
        else if act = .stop then ({ fu with stream := rest }, err)
        else
          match fu.filter with
          | none => ({ fu with stream := rest, timestamp := tm, line := line }, none)
          | some f =>
              match f fu.filename line with
              | (newline, act2, err2) =>
                if act2 = .skip then readLineAux fu rest
                else if act2 = .stop then ({ fu with stream := rest }, err2)
                else ({ fu with stream := rest, timestamp := tm, line := newline }, none)

/-- `fileReader.readLine`: scan lines until one is accepted by the time
strategy (and, when configured, by the filter strategy); on acceptance
adopt the timestamp and (possibly rewritten) line; on end of stream set
`eof`; a `STOP` action returns the strategy's error verbatim, the
consumed line already scanned away. -/
def readLine (fu : FileReader) : FileReader × Option String :=
  readLineAux fu fu.stream

/-- `readLineAux` never grows the stream. -/
theorem readLineAux_stream_le (fu : FileReader) (s : List Line) :
    (readLineAux fu s).1.stream.length ≤ s.length := by
  induction s with
  | nil => simp [readLineAux]
  | cons line rest ih =>
      rw [readLineAux]
      rcases hg : fu.getTime line with ⟨tm, act, err⟩
      by_cases hskip : act = .skip
      · simp only [hskip, if_pos rfl]
        exact le_trans ih (by simp)
      · by_cases hstop : act = .stop
        · simp [hskip, hstop]
        · rcases hf : fu.filter with _ | f
          · simp [hskip, hstop, hf]
          · rcases hf2 : f fu.filename line with ⟨newline, act2, err2⟩
            by_cases hskip2 : act2 = .skip
            · simp only [hskip, hstop, hf, hskip2, if_neg, if_pos, hf2]
              exact le_trans ih (by simp)
            · by_cases hstop2 : act2 = .stop
              · simp [hskip, hstop, hf, hf2, hskip2, hstop2]
              · simp [hskip, hstop, hf, hf2, hskip2, hstop2]

/-- On a nonempty stream, `readLineAux` consumes at least one line. -/
theorem readLineAux_stream_lt (fu : FileReader) (s : List Line) (hne : s ≠ []) :
    (readLineAux fu s).1.stream.length < s.length := by
  cases s with
  | nil => exact absurd rfl hne
  | cons line rest =>
      rw [readLineAux]
      rcases hg : fu.getTime line with ⟨tm, act, err⟩
      by_cases hskip : act = .skip
      · simp only [hskip, if_pos rfl]
        exact lt_of_le_of_lt (readLineAux_stream_le fu rest) (by simp)
      · by_cases hstop : act = .stop
        · simp [hskip, hstop, Nat.lt_succ_self]
        · rcases hf : fu.filter with _ | f
          · simp [hskip, hstop, hf, Nat.lt_succ_self]
          · rcases hf2 : f fu.filename line with ⟨newline, act2, err2⟩
            by_cases hskip2 : act2 = .skip
            · simp only [hskip, hstop, hf, hskip2, if_neg, if_pos, hf2]
              exact lt_of_le_of_lt (readLineAux_stream_le fu rest) (by simp)
            · by_cases hstop2 : act2 = .stop
              · simp [hskip, hstop, hf, hf2, hskip2, hstop2, Nat.lt_succ_self]
              · simp [hskip, hstop, hf, hf2, hskip2, hstop2, Nat.lt_succ_self]

/-- If the reader did not hit EOF, `readLine` consumed at least one line. -/
theorem readLine_stream_lt (fu : FileReader) (hne : fu.stream ≠ []) :
    (readLine fu).1.stream.length < fu.stream.length :=
  readLineAux_stream_lt fu fu.stream hne

/-- `readLine` leaves `filename`, `getTime` and `filter` untouched. -/
theorem readLineAux_const (fu : FileReader) (s : List Line) :
    (readLineAux fu s).1.filename = fu.filename ∧
      (readLineAux fu s).1.getTime = fu.getTime ∧
      (readLineAux fu s).1.filter = fu.filter := by
  induction s with
  | nil => simp [readLineAux]
  | cons line rest ih =>
      rw [readLineAux]
      rcases hg : fu.getTime line with ⟨tm, act, err⟩
      by_cases hskip : act = .skip
      · simpa [hskip] using ih
      · by_cases hstop : act = .stop
        · simp [hskip, hstop]
        · rcases hf : fu.filter with _ | f
          · simp [hskip, hstop, hf]
          · rcases hf2 : f fu.filename line with ⟨newline, act2, err2⟩
            by_cases hskip2 : act2 = .skip
            · simpa [hskip, hstop, hf, hf2, hskip2] using ih
            · by_cases hstop2 : act2 = .stop
              · simp [hskip, hstop, hf, hf2, hskip2, hstop2]
              · simp [hskip, hstop, hf, hf2, hskip2, hstop2]

/-! ## The heap (`container/heap` over `fileHeap`)

`fileHeap` is a slice of `*fileReader` with
`Less i j = readers[i].timestamp < readers[j].timestamp`,
`Swap` the slice swap, `Push` an append and `Pop` removal of the last
element.  `heapUp`/`heapDown` are the standard library's `up`/`down`
sift procedures, translated verbatim. -/

/-- Indexing into the reader slice (`fh.readers[i]`); out-of-range reads
never occur in the algorithm. -/
def lget (l : List FileReader) (i : Nat) : FileReader := l.getD i default

/-- `fh.Swap(i, j)` (a no-op when an index is out of range; the algorithm
only swaps in-range indices). -/
def lswapAux (l : List FileReader) (i j : Nat) : List FileReader :=
  (l.set i (lget l j)).set j (lget l i)

def lswap (l : List FileReader) (i j : Nat) : List FileReader :=
  if i < l.length ∧ j < l.length then lswapAux l i j else l

theorem lswapAux_length (l : List FileReader) (i j : Nat) :
    (lswapAux l i j).length = l.length := by
  simp [lswapAux]

theorem lswap_length (l : List FileReader) (i j : Nat) :
    (lswap l i j).length = l.length := by
  unfold lswap
  split
  · exact lswapAux_length l i j
  · rfl

theorem getD_cons_set_perm : ∀ (xs : List FileReader) (k : Nat) (x : FileReader),
    k < xs.length → List.Perm (lget xs k :: xs.set k x) (x :: xs)
  | y :: ys, 0, x, _ => by
      simpa [lget] using List.Perm.swap x y ys
  | y :: ys, k + 1, x, h => by
      simp only [lget, List.getD_cons_succ, List.set_cons_succ]
      refine ((List.Perm.swap _ _ _).trans ?_).trans (List.Perm.swap _ _ _)
      exact ((getD_cons_set_perm ys k x (by simpa using h)).cons y)

theorem lswapAux_perm : ∀ (l : List FileReader) (i j : Nat),
    i < l.length → j < l.length → List.Perm (lswapAux l i j) l
  | x :: xs, 0, 0, _, _ => by
      simp [lswapAux, lget]
  | x :: xs, 0, k + 1, _, hj => by
      simp only [lswapAux, lget, List.getD_cons_succ, List.getD_cons_zero,
        List.set_cons_zero, List.set_cons_succ]
      exact getD_cons_set_perm xs k x (by simpa using hj)
  | x :: xs, m + 1, 0, hi, _ => by
      simp only [lswapAux, lget, List.getD_cons_succ, List.getD_cons_zero,
        List.set_cons_zero, List.set_cons_succ]
      exact getD_cons_set_perm xs m x (by simpa using hi)
  | x :: xs, m + 1, k + 1, hi, hj => by
      simp only [lswapAux, lget, List.getD_cons_succ, List.set_cons_succ]
      exact (lswapAux_perm xs m k (by simpa using hi) (by simpa using hj)).cons x

theorem lswap_perm (l : List FileReader) (i j : Nat) :
    List.Perm (lswap l i j) l := by
  unfold lswap
  split
  · next h => exact lswapAux_perm l i j h.1 h.2
  · exact List.Perm.refl l

theorem lget_lswap_fst (l : List FileReader) {i j : Nat}
    (hi : i < l.length) (hj : j < l.length) :
    lget (lswap l i j) i = lget l j := by
  unfold lswap
  rw [if_pos ⟨hi, hj⟩]
  unfold lswapAux lget
  by_cases hij : i = j
  · subst hij
    simp [List.getD_eq_getElem?_getD, List.getElem?_set_self' (i := i)]
    simp [List.getElem?_eq_getElem, hi]
  · simp [List.getD_eq_getElem?_getD, List.getElem?_set_ne (Ne.symm hij),
      List.getElem?_set_self' (i := i), List.getElem?_eq_getElem, hi, hj]

theorem lget_lswap_snd (l : List FileReader) {i j : Nat}
    (hi : i < l.length) (hj : j < l.length) :
    lget (lswap l i j) j = lget l i := by
  unfold lswap
  rw [if_pos ⟨hi, hj⟩]
  unfold lswapAux lget
  simp [List.getD_eq_getElem?_getD, List.getElem?_set_self' (i := j),
    List.getElem?_eq_getElem, hi, hj]

theorem lget_lswap_other (l : List FileReader) {i j k : Nat}
    (hki : k ≠ i) (hkj : k ≠ j) :
    lget (lswap l i j) k = lget l k := by
  unfold lswap
  split
  · unfold lswapAux lget
    simp [List.getD_eq_getElem?_getD, List.getElem?_set_ne (Ne.symm hki),
      List.getElem?_set_ne (Ne.symm hkj)]
  · rfl

/-- The child index `j` chosen by `down`: the left child `2i+1`, or the
right child `2i+2` when it exists and compares strictly smaller. -/
def downChild (l : List FileReader) (i n : Nat) : Nat :=
  if 2 * i + 2 < n ∧ (lget l (2 * i + 2)).timestamp < (lget l (2 * i + 1)).timestamp
  then 2 * i + 2 else 2 * i + 1

theorem downChild_bounds (l : List FileReader) (i n : Nat) (h1 : 2 * i + 1 < n) :
    i < downChild l i n ∧ downChild l i n < n := by
  unfold downChild
  split <;> omega

/-- `container/heap`'s `down(h, i, n)`: sift the element at `i` down
within the first `n` positions (the returned `bool` is unused by
`Push`/`Pop` and is omitted). -/
def heapDown (l : List FileReader) (i n : Nat) : List FileReader :=
  if h1 : 2 * i + 1 < n then
    if (lget l (downChild l i n)).timestamp < (lget l i).timestamp
    then heapDown (lswap l i (downChild l i n)) (downChild l i n) n
    else l
  else l
termination_by n - i
decreasing_by
  have := downChild_bounds l i n h1
  omega

/-- `container/heap`'s `up(h, j)`: sift the element at `j` up. -/
def heapUp (l : List FileReader) (j : Nat) : List FileReader :=
  if (j - 1) / 2 = j ∨ ¬ (lget l j).timestamp < (lget l ((j - 1) / 2)).timestamp then l
  else heapUp (lswap l ((j - 1) / 2) j) ((j - 1) / 2)
termination_by j
decreasing_by
  rename_i h
  rw [not_or] at h
  omega

/-- `heap.Push`: `fh.Push` appends, then `up` at the last index. -/
def heapPush (l : List FileReader) (x : FileReader) : List FileReader :=
  heapUp (l ++ [x]) l.length

/-- `heap.Pop`: swap the root with the last element, sift the new root
down within the first `n-1` positions, then `fh.Pop` removes and returns
the last element. -/
def heapPop (l : List FileReader) : FileReader × List FileReader :=
  let n := l.length - 1
  let l2 := heapDown (lswap l 0 n) 0 n
  (lget l2 n, l2.take n)

/-- `heap.Init`: `down` at `n/2 - 1, …, 0`.  (The engine only calls it on
an empty heap.) -/
def heapInitAux (n : Nat) : List FileReader → Nat → List FileReader
  | l, 0 => l
  | l, k + 1 => heapInitAux n (heapDown l k n) k

def heapInit (l : List FileReader) : List FileReader :=
  heapInitAux l.length l (l.length / 2)

theorem heapDown_length (l : List FileReader) (i n : Nat) :
    (heapDown l i n).length = l.length := by
  induction l, i, n using heapDown.induct with
  | case1 l i n h1 hlt ih =>
      rw [heapDown, dif_pos h1, if_pos hlt, ih, lswap_length]
  | case2 l i n h1 hlt =>
      rw [heapDown, dif_pos h1, if_neg hlt]
  | case3 l i n h1 =>
      rw [heapDown, dif_neg h1]

theorem heapDown_perm (l : List FileReader) (i n : Nat) :
    List.Perm (heapDown l i n) l := by
  induction l, i, n using heapDown.induct with
  | case1 l i n h1 hlt ih =>
      rw [heapDown, dif_pos h1, if_pos hlt]
      exact ih.trans (lswap_perm l i _)
  | case2 l i n h1 hlt =>
      rw [heapDown, dif_pos h1, if_neg hlt]
  | case3 l i n h1 =>
      rw [heapDown, dif_neg h1]

/-- `down` never touches entries at positions `≥ n`. -/
theorem lget_heapDown_ge (l : List FileReader) (i n : Nat) :
    ∀ k, n ≤ k → lget (heapDown l i n) k = lget l k := by
  induction l, i, n using heapDown.induct with
  | case1 l i n h1 hlt ih =>
      intro k hk
      have hb := downChild_bounds l i n h1
      rw [heapDown, dif_pos h1, if_pos hlt, ih k hk, lget_lswap_other]
      · omega
      · omega
  | case2 l i n h1 hlt =>
      intro k hk
      rw [heapDown, dif_pos h1, if_neg hlt]
  | case3 l i n h1 =>
      intro k hk
      rw [heapDown, dif_neg h1]

theorem heapUp_length (l : List FileReader) (j : Nat) :
    (heapUp l j).length = l.length := by
  induction l, j using heapUp.induct with
  | case1 l j h => rw [heapUp, if_pos h]
  | case2 l j h ih =>
      rw [heapUp, if_neg h, ih, lswap_length]

theorem heapUp_perm (l : List FileReader) (j : Nat) :
    List.Perm (heapUp l j) l := by
  induction l, j using heapUp.induct with
  | case1 l j h => rw [heapUp, if_pos h]
  | case2 l j h ih =>
      rw [heapUp, if_neg h]
      exact ih.trans (lswap_perm l _ j)

theorem heapPush_perm (l : List FileReader) (x : FileReader) :
    List.Perm (heapPush l x) (x :: l) :=
  (heapUp_perm (l ++ [x]) l.length).trans (List.perm_append_singleton x l)

theorem heapPush_length (l : List FileReader) (x : FileReader) :
    (heapPush l x).length = l.length + 1 := by
  rw [heapPush, heapUp_length]
  simp

/-! ### The binary-heap invariant and correctness of `up`/`down`/`Push`/`Pop` -/

/-- Timestamp at position `k`. -/
def ts (l : List FileReader) (k : Nat) : Int := (lget l k).timestamp

/-- The min-heap property on the first `n` positions, for the ordering
`Less i j = readers[i].timestamp < readers[j].timestamp`. -/
def HeapUpto (l : List FileReader) (n : Nat) : Prop :=
  ∀ k, 0 < k → k < n → ts l ((k - 1) / 2) ≤ ts l k

def IsHeap (l : List FileReader) : Prop := HeapUpto l l.length

theorem ts_lswap_fst (l : List FileReader) {i j : Nat}
    (hi : i < l.length) (hj : j < l.length) : ts (lswap l i j) i = ts l j := by
  simp [ts, lget_lswap_fst l hi hj]

theorem ts_lswap_snd (l : List FileReader) {i j : Nat}
    (hi : i < l.length) (hj : j < l.length) : ts (lswap l i j) j = ts l i := by
  simp [ts, lget_lswap_snd l hi hj]

theorem ts_lswap_other (l : List FileReader) {i j k : Nat}
    (hki : k ≠ i) (hkj : k ≠ j) : ts (lswap l i j) k = ts l k := by
  simp [ts, lget_lswap_other l hki hkj]

/-- Sift-up establishes the heap property: if the heap property holds
everywhere except possibly on the edge into `j`, and the grandparent
bridge holds for `j`'s children, then `up l j` is a heap. -/
theorem heapUp_isHeap : ∀ (l : List FileReader) (j : Nat), j < l.length →
    (∀ k, 0 < k → k < l.length → k ≠ j → ts l ((k - 1) / 2) ≤ ts l k) →
    (∀ c, 0 < c → c < l.length → (c - 1) / 2 = j → 0 < j →
      ts l ((j - 1) / 2) ≤ ts l c) →
    IsHeap (heapUp l j) := by
  intro l j
  induction l, j using heapUp.induct with
  | case1 l j h =>
      intro hj ha hb
      rw [heapUp, if_pos h]
      intro k hk0 hkn
      by_cases hkj : k = j
      · subst hkj
        rcases h with h | h
        · rw [ts, ts, h]
        · exact le_of_not_lt h
      · exact ha k hk0 hkn hkj
  | case2 l j h ih =>
      intro hj ha hb
      rw [heapUp, if_neg h]
      rw [not_or, not_not] at h
      obtain ⟨hne, hlt0⟩ := h
      have hlt : ts l j < ts l ((j - 1) / 2) := hlt0
      have hij : (j - 1) / 2 < j := by omega
      have hil : (j - 1) / 2 < l.length := lt_trans hij hj
      have hlen := lswap_length l ((j - 1) / 2) j
      apply ih
      · rw [hlen]; exact hil
      · -- heap property except at the edge into (j-1)/2
        intro k hk0 hkn hki
        rw [hlen] at hkn
        by_cases hkj : k = j
        · subst hkj
          rw [ts_lswap_fst l hil hj, ts_lswap_snd l hil hj]
          exact le_of_lt hlt
        · by_cases hpk : (k - 1) / 2 = (j - 1) / 2
          · rw [hpk, ts_lswap_fst l hil hj, ts_lswap_other l hki hkj]
            have h1 : ts l ((k - 1) / 2) ≤ ts l k := ha k hk0 hkn hkj
            rw [hpk] at h1
            exact le_trans (le_of_lt hlt) h1
          · by_cases hpkj : (k - 1) / 2 = j
            · rw [hpkj, ts_lswap_snd l hil hj, ts_lswap_other l hki hkj]
              exact hb k hk0 hkn hpkj (by omega)
            · rw [ts_lswap_other l hpk hpkj, ts_lswap_other l hki hkj]
              exact ha k hk0 hkn hkj
      · -- grandparent bridge for the children of (j-1)/2
        intro c hc0 hcn hpc hi0
        rw [hlen] at hcn
        have hpi_ne_i : ((j - 1) / 2 - 1) / 2 ≠ (j - 1) / 2 := by omega
        have hpi_ne_j : ((j - 1) / 2 - 1) / 2 ≠ j := by omega
        rw [ts_lswap_other l hpi_ne_i hpi_ne_j]
        have hstep : ts l (((j - 1) / 2 - 1) / 2) ≤ ts l ((j - 1) / 2) :=
          ha ((j - 1) / 2) hi0 hil hne
        by_cases hcj : c = j
        · subst hcj
          rw [ts_lswap_snd l hil hj]
          exact hstep
        · have hci : c ≠ (j - 1) / 2 := by omega
          rw [ts_lswap_other l hci hcj]
          have h2 : ts l ((c - 1) / 2) ≤ ts l c := ha c hc0 hcn hcj
          rw [hpc] at h2
          exact le_trans hstep h2

theorem downChild_min1 (l : List FileReader) (i n : Nat) :
    ts l (downChild l i n) ≤ ts l (2 * i + 1) := by
  unfold downChild
  split
  · next hcond => exact le_of_lt hcond.2
  · exact le_refl _

theorem downChild_min2 (l : List FileReader) (i n : Nat) (h2 : 2 * i + 2 < n) :
    ts l (downChild l i n) ≤ ts l (2 * i + 2) := by
  unfold downChild
  split
  · exact le_refl _
  · next hcond =>
      rw [not_and] at hcond
      exact le_of_not_lt (hcond h2)

theorem downChild_parent (l : List FileReader) (i n : Nat) :
    (downChild l i n - 1) / 2 = i := by
  unfold downChild
  split <;> omega

/-- Sift-down establishes the heap property on the first `n` positions:
if it holds everywhere except possibly on the edges out of `i`, together
with the grandparent bridge into `i`'s children, then `down l i n` is a
heap up to `n`. -/
theorem heapDown_heapUpto : ∀ (l : List FileReader) (i n : Nat), n ≤ l.length →
    (∀ k, 0 < k → k < n → (k - 1) / 2 ≠ i → ts l ((k - 1) / 2) ≤ ts l k) →
    (∀ c, 0 < c → c < n → (c - 1) / 2 = i → 0 < i →
      ts l ((i - 1) / 2) ≤ ts l c) →
    HeapUpto (heapDown l i n) n := by
  intro l i n
  induction l, i, n using heapDown.induct with
  | case1 l i n h1 hlt ih =>
      intro hn ha hb
      rw [heapDown, dif_pos h1, if_pos hlt]
      have hdc := downChild_bounds l i n h1
      have hdcp := downChild_parent l i n
      have hil : i < l.length := by omega
      have hjl : downChild l i n < l.length := by omega
      have hlt' : ts l (downChild l i n) < ts l i := hlt
      have hlen := lswap_length l i (downChild l i n)
      apply ih
      · rw [hlen]; exact hn
      · intro k hk0 hkn hpk
        by_cases hkj : k = downChild l i n
        · subst hkj
          rw [hdcp, ts_lswap_fst l hil hjl, ts_lswap_snd l hil hjl]
          exact le_of_lt hlt'
        · by_cases hki : k = i
          · subst hki
            have hpi_ne_i : (k - 1) / 2 ≠ k := by omega
            have hpi_ne_j : (k - 1) / 2 ≠ downChild l k n := by omega
            rw [ts_lswap_other l hpi_ne_i hpi_ne_j, ts_lswap_fst l hil hjl]
            exact hb (downChild l k n) (by omega) (by omega) hdcp hk0
          · by_cases hpki : (k - 1) / 2 = i
            · rw [hpki, ts_lswap_fst l hil hjl, ts_lswap_other l hki hkj]
              have hk12 : k = 2 * i + 1 ∨ k = 2 * i + 2 := by omega
              rcases hk12 with hk12 | hk12
              · rw [hk12]; exact downChild_min1 l i n
              · rw [hk12]; exact downChild_min2 l i n (by omega)
            · rw [ts_lswap_other l hpki hpk, ts_lswap_other l hki hkj]
              exact ha k hk0 hkn hpki
      · intro c hc0 hcn hpc hj0
        rw [hdcp]
        have hci : c ≠ i := by omega
        have hcj : c ≠ downChild l i n := by omega
        rw [ts_lswap_fst l hil hjl, ts_lswap_other l hci hcj]
        have h2 : ts l ((c - 1) / 2) ≤ ts l c :=
          ha c hc0 hcn (by omega)
        rw [hpc] at h2
        exact h2
  | case2 l i n h1 hlt =>
      intro hn ha hb
      rw [heapDown, dif_pos h1, if_neg hlt]
      intro k hk0 hkn
      by_cases hpk : (k - 1) / 2 = i
      · rw [hpk]
        have hle : ts l i ≤ ts l (downChild l i n) := le_of_not_lt hlt
        have hk12 : k = 2 * i + 1 ∨ k = 2 * i + 2 := by omega
        rcases hk12 with hk12 | hk12
        · rw [hk12]; exact le_trans hle (downChild_min1 l i n)
        · rw [hk12]; exact le_trans hle (downChild_min2 l i n (by omega))
      · exact ha k hk0 hkn hpk
  | case3 l i n h1 =>
      intro hn ha hb
      rw [heapDown, dif_neg h1]
      intro k hk0 hkn
      by_cases hpk : (k - 1) / 2 = i
      · exfalso; omega
      · exact ha k hk0 hkn hpk

/-- In a heap, the root is minimal among the first `n` positions. -/
theorem heapUpto_root_min (l : List FileReader) (n : Nat) (h : HeapUpto l n) :
    ∀ j, j < n → ts l 0 ≤ ts l j := by
  intro j
  induction j using Nat.strong_induction_on with
  | _ j ih =>
      intro hj
      rcases Nat.eq_zero_or_pos j with hj0 | hj0
      · subst hj0; exact le_refl _
      · exact le_trans (ih ((j - 1) / 2) (by omega) (by omega)) (h j hj0 hj)

/-- `heap.Push` preserves the heap invariant. -/
theorem heapPush_isHeap (l : List FileReader) (x : FileReader) (h : IsHeap l) :
    IsHeap (heapPush l x) := by
  apply heapUp_isHeap
  · simp
  · intro k hk0 hkn hkj
    have hk : k < l.length := by simp at hkn; omega
    have hpk : (k - 1) / 2 < l.length := by omega
    have e1 : lget (l ++ [x]) k = lget l k := by
      simp [lget, List.getD_eq_getElem?_getD, List.getElem?_append_left hk]
    have e2 : lget (l ++ [x]) ((k - 1) / 2) = lget l ((k - 1) / 2) := by
      simp [lget, List.getD_eq_getElem?_getD, List.getElem?_append_left hpk]
    show (lget (l ++ [x]) ((k - 1) / 2)).timestamp ≤ (lget (l ++ [x]) k).timestamp
    rw [e1, e2]
    exact h k hk0 hk
  · intro c hc0 hcn hpc hj0
    exfalso
    simp at hcn
    omega

theorem heapPop_l2_length (l : List FileReader) :
    (heapDown (lswap l 0 (l.length - 1)) 0 (l.length - 1)).length = l.length := by
  rw [heapDown_length, lswap_length]

theorem lget_eq_getElem (m : List FileReader) (k : Nat) (hk : k < m.length) :
    lget m k = m[k] := by
  simp [lget, List.getD_eq_getElem?_getD, List.getElem?_eq_getElem hk]

/-- Any list of length `n+1` splits as its first `n` elements plus its last. -/
theorem take_concat_lget (m : List FileReader) (n : Nat) (h : m.length = n + 1) :
    m = m.take n ++ [lget m n] := by
  conv_lhs => rw [← List.take_append_drop n m]
  congr 1
  rw [List.drop_eq_getElem_cons (by omega), List.drop_eq_nil_of_le (by omega),
    lget_eq_getElem m n (by omega)]

/-- `heap.Pop` returns the popped element and the remaining slice: together
they are a permutation of the input. -/
theorem heapPop_perm (l : List FileReader) (hne : l ≠ []) :
    List.Perm ((heapPop l).1 :: (heapPop l).2) l := by
  have hlen : l.length - 1 + 1 = l.length := by
    cases l with
    | nil => exact absurd rfl hne
    | cons a as => simp
  have hperm : List.Perm (heapDown (lswap l 0 (l.length - 1)) 0 (l.length - 1)) l :=
    (heapDown_perm _ 0 (l.length - 1)).trans (lswap_perm l 0 (l.length - 1))
  show List.Perm
    (lget (heapDown (lswap l 0 (l.length - 1)) 0 (l.length - 1)) (l.length - 1) ::
      (heapDown (lswap l 0 (l.length - 1)) 0 (l.length - 1)).take (l.length - 1)) l
  refine List.Perm.trans ?_ hperm
  conv_rhs =>
    rw [take_concat_lget (heapDown (lswap l 0 (l.length - 1)) 0 (l.length - 1))
      (l.length - 1) (by rw [heapPop_l2_length]; omega)]
  exact (List.perm_append_singleton _ _).symm

/-- The element `heap.Pop` returns is the heap's root, hence minimal. -/
theorem heapPop_min (l : List FileReader) (hne : l ≠ []) (h : IsHeap l) :
    ∀ r ∈ (heapPop l).2, (heapPop l).1.timestamp ≤ r.timestamp := by
  intro r hr
  have hlpos : 0 < l.length := List.length_pos.mpr hne
  have hn : l.length - 1 < l.length := by omega
  have hfr : (heapPop l).1 = lget l 0 := by
    show lget (heapDown (lswap l 0 (l.length - 1)) 0 (l.length - 1)) (l.length - 1) = _
    rw [lget_heapDown_ge _ 0 (l.length - 1) (l.length - 1) (le_refl _),
      lget_lswap_snd l hlpos hn]
  have hrl : r ∈ l := by
    have h1 : r ∈ heapDown (lswap l 0 (l.length - 1)) 0 (l.length - 1) :=
      List.mem_of_mem_take hr
    exact ((heapDown_perm _ 0 (l.length - 1)).trans (lswap_perm l 0 (l.length - 1))).mem_iff.mp h1
  obtain ⟨k, hk, hkr⟩ := List.mem_iff_getElem.mp hrl
  have hmin := heapUpto_root_min l l.length h k hk
  rw [hfr]
  show (lget l 0).timestamp ≤ r.timestamp
  calc (lget l 0).timestamp ≤ (lget l k).timestamp := hmin
    _ = r.timestamp := by rw [lget_eq_getElem l k hk, hkr]

/-- `heap.Pop` preserves the heap invariant on the remaining slice. -/
theorem heapPop_isHeap (l : List FileReader) (hne : l ≠ []) (h : IsHeap l) :
    IsHeap (heapPop l).2 := by
  have hlpos : 0 < l.length := List.length_pos.mpr hne
  have hupto : HeapUpto (heapDown (lswap l 0 (l.length - 1)) 0 (l.length - 1))
      (l.length - 1) := by
    apply heapDown_heapUpto
    · rw [lswap_length]; omega
    · intro k hk0 hkn hpk
      have hkn' : k < l.length := by omega
      have hpkn : (k - 1) / 2 < l.length := by omega
      rw [ts_lswap_other l (by omega) (by omega), ts_lswap_other l (by omega) (by omega)]
      exact h k hk0 hkn'
    · intro c hc0 hcn hpc h00
      exact absurd h00 (by omega)
  show IsHeap ((heapDown (lswap l 0 (l.length - 1)) 0 (l.length - 1)).take (l.length - 1))
  intro k hk0 hkn
  have hlt : l.length - 1 ≤ (heapDown (lswap l 0 (l.length - 1)) 0 (l.length - 1)).length := by
    rw [heapPop_l2_length]; omega
  rw [List.length_take] at hkn
  have hkn' : k < l.length - 1 := by omega
  have e1 : ∀ m, m < l.length - 1 →
      lget ((heapDown (lswap l 0 (l.length - 1)) 0 (l.length - 1)).take (l.length - 1)) m =
        lget (heapDown (lswap l 0 (l.length - 1)) 0 (l.length - 1)) m := by
    intro m hm
    simp [lget, List.getD_eq_getElem?_getD, List.getElem?_take_of_lt hm]
  show (lget _ ((k - 1) / 2)).timestamp ≤ (lget _ k).timestamp
  rw [e1 k hkn', e1 ((k - 1) / 2) (by omega)]
  exact hupto k hk0 hkn'

/-! ## The ordered merge: `fileHeap.merge` and `merge` -/

/-- Termination measure: total unscanned lines, plus one per live cursor. -/
def hmeasure (l : List FileReader) : Nat := (l.map (fun r => r.stream.length + 1)).sum

theorem hmeasure_perm {l l' : List FileReader} (h : List.Perm l l') :
    hmeasure l = hmeasure l' :=
  (h.map _).sum_eq

/-- The merge loop's next heap is strictly smaller in measure. -/
theorem hmeasure_lt (l : List FileReader) (fr : FileReader) (rest : List FileReader)
    (fr' : FileReader) (hl : ¬ l.length = 0) (hp : heapPop l = (fr, rest))
    (hr : readLine fr = (fr', none)) :
    hmeasure (if fr'.eof then rest else heapPush rest fr') < hmeasure l := by
  have hperm := heapPop_perm l (by intro h0; exact hl (by simp [h0]))
  rw [hp] at hperm
  have hml : hmeasure l = fr.stream.length + 1 + hmeasure rest := by
    rw [← hmeasure_perm hperm]
    simp [hmeasure]
  split
  · have : 0 < fr.stream.length + 1 := Nat.succ_pos _
    omega
  · next heof =>
    have hne : fr.stream ≠ [] := by
      intro h0
      rw [readLine, h0] at hr
      rw [readLineAux] at hr
      have : fr'.eof = true := by
        have := congrArg (fun p => p.1.eof) hr
        simpa using this.symm
      exact heof this
    have hlt : fr'.stream.length < fr.stream.length := by
      have := readLine_stream_lt fr hne
      rw [hr] at this
      exact this
    have hpp : hmeasure (heapPush rest fr') = fr'.stream.length + 1 + hmeasure rest := by
      rw [hmeasure_perm (heapPush_perm rest fr')]
      simp [hmeasure]
    omega

/-- `fileHeap.merge`: pop the minimum cursor, write its current record
(then flush), advance it with `readLine`; a `readLine` error aborts the
run with that error; a non-EOF cursor is pushed back.  The output pairs
each written line with the cursor's `timestamp` at the moment of the
write (a ghost value used to state ordering). -/
def fileHeapMerge (l : List FileReader) : List (Int × Line) × Option String :=
  if hl : l.length = 0 then ([], none)
  else
    match hp : heapPop l with
    | (fr, rest) =>
      match hr : readLine fr with
      | (fr', some err) => ([(fr.timestamp, fr.line)], some err)
      | (fr', none) =>
          let res := fileHeapMerge (if fr'.eof then rest else heapPush rest fr')
          ((fr.timestamp, fr.line) :: res.1, res.2)
termination_by hmeasure l
decreasing_by
  exact hmeasure_lt l fr rest fr' hl hp hr

/-- Unfolding equation: empty heap. -/
theorem fileHeapMerge_nil (l : List FileReader) (hl : l.length = 0) :
    fileHeapMerge l = ([], none) := by
  rw [fileHeapMerge, dif_pos hl]

/-- Unfolding equation: the popped cursor's advance fails — the record
already flushed stays in the output and the error is returned. -/
theorem fileHeapMerge_abort (l : List FileReader) (fr : FileReader)
    (rest : List FileReader) (fr' : FileReader) (err : String)
    (hl : ¬ l.length = 0) (hp : heapPop l = (fr, rest))
    (hr : readLine fr = (fr', some err)) :
    fileHeapMerge l = ([(fr.timestamp, fr.line)], some err) := by
  rw [fileHeapMerge, dif_neg hl, hp]
  simp only []
  rw [hr]

/-- Unfolding equation: successful advance. -/
theorem fileHeapMerge_step (l : List FileReader) (fr : FileReader)
    (rest : List FileReader) (fr' : FileReader)
    (hl : ¬ l.length = 0) (hp : heapPop l = (fr, rest))
    (hr : readLine fr = (fr', none)) :
    fileHeapMerge l =
      ((fr.timestamp, fr.line) ::
          (fileHeapMerge (if fr'.eof then rest else heapPush rest fr')).1,
        (fileHeapMerge (if fr'.eof then rest else heapPush rest fr')).2) := by
  rw [fileHeapMerge, dif_neg hl, hp]
  simp only []
  rw [hr]

/-- The cursor `merge()` builds per source: `&fileReader{scanner: rd,
getTime: getTime, filter: filter}` — zero-valued `filename`, `timestamp`
and `line`, `eof = false`. -/
def initReader (gt : TimeHandler) (fl : Option FilterHandler) (src : List Line) :
    FileReader :=
  ⟨"", src, 0, "", false, gt, fl⟩

/-- The priming loop of `merge`: build a `fileReader` per source, advance
it once; an error aborts the whole run; non-EOF cursors are pushed. -/
def primeLoop (getTime : TimeHandler) (filter : Option FilterHandler)
    (acc : List FileReader) : List (List Line) → Except String (List FileReader)
  | [] => .ok acc
  | rd :: rest =>
      match readLine (initReader getTime filter rd) with
      | (_, some err) => .error err
      | (fr, none) =>
          primeLoop getTime filter (if fr.eof then acc else heapPush acc fr) rest

/-- `merge(readers, writer, getTime, filter)`: prime every source, then
drain the heap.  Returns the written records (with their ghost keys) and
the error result. -/
def merge (readers : List (List Line)) (getTime : TimeHandler)
    (filter : Option FilterHandler) : List (Int × Line) × Option String :=
  match primeLoop getTime filter (heapInit []) readers with
  | .error err => ([], some err)
  | .ok fHeap => fileHeapMerge fHeap

/-! ## Per-line strategy outcomes (analysis predicates) -/

/-- Neither strategy returns `STOP` on this line. -/
def LineNoStop (gt : TimeHandler) (fl : Option FilterHandler) (fn : String) (l : Line) : Prop :=
  (gt l).2.1 ≠ .stop ∧ ∀ f, fl = some f → (f fn l).2.1 ≠ .stop

/-- A `STOP` from either strategy on this line carries a non-nil error. -/
def LineNoNilStop (gt : TimeHandler) (fl : Option FilterHandler) (fn : String) (l : Line) : Prop :=
  ((gt l).2.1 = .stop → (gt l).2.2 ≠ none) ∧
    ∀ f, fl = some f → (f fn l).2.1 = .stop → (f fn l).2.2 ≠ none

def NoStop (fr : FileReader) : Prop :=
  ∀ l ∈ fr.stream, LineNoStop fr.getTime fr.filter fr.filename l

def NoNilStop (fr : FileReader) : Prop :=
  ∀ l ∈ fr.stream, LineNoNilStop fr.getTime fr.filter fr.filename l

/-- The sort key the time strategy assigns to a raw line. -/
def lineKey (gt : TimeHandler) (l : Line) : Int := (gt l).1

/-- The cursor's current timestamp followed by the keys of its unscanned
lines is non-decreasing. -/
def KeysMono (fr : FileReader) : Prop :=
  List.Chain' (· ≤ ·) (fr.timestamp :: fr.stream.map (lineKey fr.getTime))

theorem readLineAux_suffix (fu : FileReader) (s : List Line) :
    List.IsSuffix (readLineAux fu s).1.stream s := by
  induction s with
  | nil => simp [readLineAux]
  | cons line rest ih =>
      rw [readLineAux]
      rcases hg : fu.getTime line with ⟨tm, act, err⟩
      by_cases hskip : act = .skip
      · simp only [hskip, if_pos rfl]
        exact ih.trans (List.suffix_cons line rest)
      · by_cases hstop : act = .stop
        · simp only [hskip, hstop, if_neg, if_pos]
          exact List.suffix_cons line rest
        · rcases hf : fu.filter with _ | f
          · simp only [hskip, hstop, hf, if_neg]
            exact List.suffix_cons line rest
          · rcases hf2 : f fu.filename line with ⟨newline, act2, err2⟩
            by_cases hskip2 : act2 = .skip
            · simp only [hskip, hstop, hf, hf2, hskip2, if_neg, if_pos]
              exact ih.trans (List.suffix_cons line rest)
            · by_cases hstop2 : act2 = .stop
              · simp only [hskip, hstop, hf, hf2, hskip2, hstop2, if_neg, if_pos]
                exact List.suffix_cons line rest
              · simp only [hskip, hstop, hf, hf2, hskip2, hstop2, if_neg]
                exact List.suffix_cons line rest

/-- If no line triggers `STOP`, `readLine` succeeds. -/
theorem readLineAux_ok_of_noStop (fu : FileReader) (s : List Line)
    (h : ∀ l ∈ s, LineNoStop fu.getTime fu.filter fu.filename l) :
    (readLineAux fu s).2 = none := by
  induction s with
  | nil => simp [readLineAux]
  | cons line rest ih =>
      rw [readLineAux]
      rcases hg : fu.getTime line with ⟨tm, act, err⟩
      have hl := h line (by simp)
      rcases hl with ⟨hl1, hl2⟩
      rw [hg] at hl1
      by_cases hskip : act = .skip
      · simp only [hskip, if_pos rfl]
        exact ih fun l hl => h l (by simp [hl])
      · have hstop : ¬ act = .stop := hl1
        rcases hf : fu.filter with _ | f
        · simp [hskip, hstop, hf]
        · rcases hf2 : f fu.filename line with ⟨newline, act2, err2⟩
          have hstop2 : ¬ act2 = .stop := by
            have := hl2 f hf
            rw [hf2] at this
            exact this
          by_cases hskip2 : act2 = .skip
          · simp only [hskip, hstop, hf, hf2, hskip2, if_neg, if_pos, not_false_iff]
            exact ih fun l hl => h l (by simp [hl])
          · simp [hskip, hstop, hf, hf2, hskip2, hstop2]

/-- Any error `readLine` returns is the error of a strategy invocation
that returned `STOP` on some scanned line. -/
theorem readLineAux_error_strategy (fu : FileReader) (s : List Line)
    (fr : FileReader) (err : String) (h : readLineAux fu s = (fr, some err)) :
    ∃ l ∈ s, ((fu.getTime l).2.1 = .stop ∧ (fu.getTime l).2.2 = some err) ∨
      (∃ f, fu.filter = some f ∧ (f fu.filename l).2.1 = .stop ∧
        (f fu.filename l).2.2 = some err) := by
  induction s with
  | nil => simp [readLineAux] at h
  | cons line rest ih =>
      rw [readLineAux] at h
      rcases hg : fu.getTime line with ⟨tm, act, err0⟩
      rw [hg] at h
      simp only [] at h
      by_cases hskip : act = .skip
      · rw [if_pos (by rw [hskip])] at h
        obtain ⟨l, hl, hcase⟩ := ih h
        exact ⟨l, by simp [hl], hcase⟩
      · by_cases hstop : act = .stop
        · rw [if_neg hskip, if_pos hstop] at h
          refine ⟨line, by simp, Or.inl ?_⟩
          rw [hg]
          exact ⟨hstop, by simpa using congrArg Prod.snd h⟩
        · rw [if_neg hskip, if_neg hstop] at h
          rcases hf : fu.filter with _ | f
          · rw [hf] at h
            simp at h
          · rw [hf] at h
            simp only [] at h
            rcases hf2 : f fu.filename line with ⟨newline, act2, err2⟩
            rw [hf2] at h
            simp only [] at h
            by_cases hskip2 : act2 = .skip
            · rw [if_pos (by rw [hskip2])] at h
              obtain ⟨l, hl, hcase⟩ := ih h
              rw [hf] at hcase
              exact ⟨l, by simp [hl], hcase⟩
            · by_cases hstop2 : act2 = .stop
              · rw [if_neg hskip2, if_pos hstop2] at h
                refine ⟨line, by simp, Or.inr ⟨f, rfl, ?_, ?_⟩⟩
                · rw [hf2]; exact hstop2
                · rw [hf2]; simpa using congrArg Prod.snd h
              · rw [if_neg hskip2, if_neg hstop2] at h
                simp at h

/-- Transitivity lets a `≤`-chain drop its second element. -/
theorem chain_le_drop_mid (a b : Int) (l : List Int)
    (h : List.Chain' (· ≤ ·) (a :: b :: l)) : List.Chain' (· ≤ ·) (a :: l) := by
  rw [List.chain'_cons'] at *
  obtain ⟨hab, h2⟩ := h
  rw [List.chain'_cons'] at h2
  refine ⟨fun y hy => ?_, h2.2⟩
  exact le_trans (hab b rfl) (h2.1 y hy)

/-- A successful `readLine` over a key-sorted stream yields a cursor whose
current key precedes its remaining keys. -/
theorem readLineAux_keysMono (fu : FileReader) (s : List Line) (fr : FileReader)
    (hs : List.Chain' (· ≤ ·) (s.map (lineKey fu.getTime)))
    (hnn : ∀ l ∈ s, LineNoNilStop fu.getTime fu.filter fu.filename l)
    (h : readLineAux fu s = (fr, none)) : KeysMono fr := by
  induction s with
  | nil =>
      rw [readLineAux] at h
      rw [Prod.mk.injEq] at h
      obtain ⟨hfr, -⟩ := h
      subst hfr
      simp [KeysMono]
  | cons line rest ih =>
      rw [readLineAux] at h
      rcases hg : fu.getTime line with ⟨tm, act, err0⟩
      rw [hg] at h
      simp only [] at h
      have hrest : List.Chain' (· ≤ ·) (rest.map (lineKey fu.getTime)) := by
        simpa using hs.tail
      by_cases hskip : act = .skip
      · rw [if_pos (by rw [hskip])] at h
        exact ih hrest (fun l hl => hnn l (by simp [hl])) h
      · by_cases hstop : act = .stop
        · rw [if_neg hskip, if_pos hstop] at h
          have herr : err0 = none := by simpa using congrArg Prod.snd h
          have := (hnn line (by simp)).1
          rw [hg] at this
          exact absurd herr (this hstop)
        · rw [if_neg hskip, if_neg hstop] at h
          have hkey : lineKey fu.getTime line = tm := by simp [lineKey, hg]
          rcases hf : fu.filter with _ | f
          · rw [hf] at h
            rw [Prod.mk.injEq] at h
            obtain ⟨hfr, -⟩ := h
            subst hfr
            show List.Chain' (· ≤ ·) (tm :: rest.map (lineKey fu.getTime))
            have := hs
            rw [List.map_cons, hkey] at this
            exact this
          · rw [hf] at h
            simp only [] at h
            rcases hf2 : f fu.filename line with ⟨newline, act2, err2⟩
            rw [hf2] at h
            simp only [] at h
            by_cases hskip2 : act2 = .skip
            · rw [if_pos (by rw [hskip2])] at h
              exact ih hrest (fun l hl => hnn l (by simp [hl])) h
            · by_cases hstop2 : act2 = .stop
              · rw [if_neg hskip2, if_pos hstop2] at h
                have herr : err2 = none := by simpa using congrArg Prod.snd h
                have := (hnn line (by simp)).2 f hf
                rw [hf2] at this
                exact absurd herr (this hstop2)
              · rw [if_neg hskip2, if_neg hstop2] at h
                rw [Prod.mk.injEq] at h
                obtain ⟨hfr, -⟩ := h
                subst hfr
                show List.Chain' (· ≤ ·) (tm :: rest.map (lineKey fu.getTime))
                have := hs
                rw [List.map_cons, hkey] at this
                exact this

/-- A successful `readLine` never decreases the cursor's timestamp
(given the cursor's key-monotonicity). -/
theorem readLineAux_ts_mono (fu : FileReader) (s : List Line) (fr : FileReader)
    (hs : List.Chain' (· ≤ ·) (fu.timestamp :: s.map (lineKey fu.getTime)))
    (hnn : ∀ l ∈ s, LineNoNilStop fu.getTime fu.filter fu.filename l)
    (h : readLineAux fu s = (fr, none)) : fu.timestamp ≤ fr.timestamp := by
  induction s with
  | nil =>
      rw [readLineAux] at h
      rw [Prod.mk.injEq] at h
      obtain ⟨hfr, -⟩ := h
      subst hfr
      exact le_refl _
  | cons line rest ih =>
      rw [readLineAux] at h
      rcases hg : fu.getTime line with ⟨tm, act, err0⟩
      rw [hg] at h
      simp only [] at h
      have hkey : lineKey fu.getTime line = tm := by simp [lineKey, hg]
      have hhead : fu.timestamp ≤ tm := by
        rw [List.map_cons, hkey, List.chain'_cons] at hs
        exact hs.1
      have hrest : List.Chain' (· ≤ ·) (fu.timestamp :: rest.map (lineKey fu.getTime)) := by
        rw [List.map_cons] at hs
        exact chain_le_drop_mid _ _ _ hs
      by_cases hskip : act = .skip
      · rw [if_pos (by rw [hskip])] at h
        exact ih hrest (fun l hl => hnn l (by simp [hl])) h
      · by_cases hstop : act = .stop
        · rw [if_neg hskip, if_pos hstop] at h
          have herr : err0 = none := by simpa using congrArg Prod.snd h
          have := (hnn line (by simp)).1
          rw [hg] at this
          exact absurd herr (this hstop)
        · rw [if_neg hskip, if_neg hstop] at h
          rcases hf : fu.filter with _ | f
          · rw [hf] at h
            rw [Prod.mk.injEq] at h
            obtain ⟨hfr, -⟩ := h
            subst hfr
            exact hhead
          · rw [hf] at h
            simp only [] at h
            rcases hf2 : f fu.filename line with ⟨newline, act2, err2⟩
            rw [hf2] at h
            simp only [] at h
            by_cases hskip2 : act2 = .skip
            · rw [if_pos (by rw [hskip2])] at h
              exact ih hrest (fun l hl => hnn l (by simp [hl])) h
            · by_cases hstop2 : act2 = .stop
              · rw [if_neg hskip2, if_pos hstop2] at h
                have herr : err2 = none := by simpa using congrArg Prod.snd h
                have := (hnn line (by simp)).2 f hf
                rw [hf2] at this
                exact absurd herr (this hstop2)
              · rw [if_neg hskip2, if_neg hstop2] at h
                rw [Prod.mk.injEq] at h
                obtain ⟨hfr, -⟩ := h
                subst hfr
                exact hhead

/-! ## Packaged `readLine` facts at the cursor level -/

theorem readLine_noStop_ok (fr : FileReader) (h : NoStop fr) :
    (readLine fr).2 = none :=
  readLineAux_ok_of_noStop fr fr.stream h

theorem readLine_noStop (fr : FileReader) (h : NoStop fr) :
    NoStop (readLine fr).1 := by
  intro l hl
  have hconst := readLineAux_const fr fr.stream
  have hmem : l ∈ fr.stream := (readLineAux_suffix fr fr.stream).subset hl
  show LineNoStop (readLine fr).1.getTime (readLine fr).1.filter (readLine fr).1.filename l
  rw [readLine, hconst.1, hconst.2.1, hconst.2.2]
  exact h l hmem

theorem readLine_noNilStop (fr : FileReader) (h : NoNilStop fr) :
    NoNilStop (readLine fr).1 := by
  intro l hl
  have hconst := readLineAux_const fr fr.stream
  have hmem : l ∈ fr.stream := (readLineAux_suffix fr fr.stream).subset hl
  show LineNoNilStop (readLine fr).1.getTime (readLine fr).1.filter (readLine fr).1.filename l
  rw [readLine, hconst.1, hconst.2.1, hconst.2.2]
  exact h l hmem

/-- A successful advance of a key-monotone cursor stays key-monotone and
does not decrease the timestamp. -/
theorem readLine_advance (fr fr' : FileReader) (hkm : KeysMono fr)
    (hnn : NoNilStop fr) (h : readLine fr = (fr', none)) :
    KeysMono fr' ∧ fr.timestamp ≤ fr'.timestamp := by
  constructor
  · exact readLineAux_keysMono fr fr.stream fr' (by simpa [KeysMono] using hkm.tail) hnn h
  · exact readLineAux_ts_mono fr fr.stream fr' hkm hnn h

/-! ## Per-source accepted records and cursor drains -/

/-- The sequence of records the merge loop will write for a cursor that
currently sits in the heap: its current record, then everything produced
by repeated advances until EOF.  (Analysis function; errors are not
modelled here — it is only used on cursors that never `STOP`.) -/
def drainEmits (fr : FileReader) : List (Int × Line) :=
  (fr.timestamp, fr.line) ::
    (if h : (readLine fr).1.eof = true then [] else drainEmits (readLine fr).1)
termination_by fr.stream.length
decreasing_by
  have hne : fr.stream ≠ [] := by
    intro h0
    apply h
    rw [readLine, h0, readLineAux]
  exact readLine_stream_lt fr hne

/-- The records of one source accepted by the time strategy (and, when
configured, the filter strategy), paired with their keys, in source
order.  Mirrors `readLine`'s decision logic; a `STOP` ends the list. -/
def acceptedRecs (gt : TimeHandler) (fl : Option FilterHandler) (fn : String) :
    List Line → List (Int × Line)
  | [] => []
  | l :: rest =>
      match gt l with
      | (tm, act, _) =>
        if act = .skip then acceptedRecs gt fl fn rest
        else if act = .stop then []
        else
          match fl with
          | none => (tm, l) :: acceptedRecs gt fl fn rest
          | some f =>
              match f fn l with
              | (nl, act2, _) =>
                if act2 = .skip then acceptedRecs gt fl fn rest
                else if act2 = .stop then []
                else (tm, nl) :: acceptedRecs gt fl fn rest

/-- `readLineAux` ignores the cursor's stored `stream` field (the scan
works on its explicit argument). -/
theorem readLineAux_stream_irrel (fn : String) (ts0 : Int) (ln : Line) (e : Bool)
    (gt : TimeHandler) (fl : Option FilterHandler) (s₁ s₂ : List Line) (t : List Line) :
    readLineAux ⟨fn, s₁, ts0, ln, e, gt, fl⟩ t = readLineAux ⟨fn, s₂, ts0, ln, e, gt, fl⟩ t := by
  induction t with
  | nil => simp [readLineAux]
  | cons l rest ih =>
      rw [readLineAux, readLineAux]
      rcases hg : gt l with ⟨tm, act, err⟩
      simp only [hg]
      by_cases hskip : act = .skip
      · simp only [hskip, if_pos rfl]
        exact ih
      · by_cases hstop : act = .stop
        · simp [hskip, hstop]
        · rcases hf : fl with _ | f
          · simp [hskip, hstop]
          · rcases hf2 : f fn l with ⟨nl, act2, err2⟩
            simp only [hf2]
            by_cases hskip2 : act2 = .skip
            · rw [hf] at ih
              simp [hskip, hstop, hskip2, ih]
            · by_cases hstop2 : act2 = .stop
              · simp [hskip, hstop, hskip2, hstop2]
              · simp [hskip, hstop, hskip2, hstop2]

/-- Bridging lemma: priming a fresh cursor on a stop-free source and
draining it yields exactly the source's accepted records. -/
theorem drain_eq_accepted (gt : TimeHandler) (fl : Option FilterHandler) :
    ∀ (s : List Line) (fn : String) (ts0 : Int) (ln : Line),
    (∀ l ∈ s, LineNoStop gt fl fn l) →
    (if (readLineAux ⟨fn, s, ts0, ln, false, gt, fl⟩ s).1.eof = true then []
     else drainEmits (readLineAux ⟨fn, s, ts0, ln, false, gt, fl⟩ s).1) =
      acceptedRecs gt fl fn s := by
  intro s
  induction s with
  | nil =>
      intro fn ts0 ln _
      simp [readLineAux, acceptedRecs]
  | cons l rest ih =>
      intro fn ts0 ln hns
      have hns' : ∀ x ∈ rest, LineNoStop gt fl fn x := fun x hx => hns x (by simp [hx])
      have hl := hns l (by simp)
      rw [readLineAux, acceptedRecs]
      rcases hg : gt l with ⟨tm, act, err⟩
      simp only [hg]
      obtain ⟨hl1, hl2⟩ := hl
      rw [hg] at hl1
      by_cases hskip : act = .skip
      · simp only [hskip, if_pos rfl]
        rw [readLineAux_stream_irrel fn ts0 ln false gt fl (l :: rest) rest rest]
        exact ih fn ts0 ln hns'
      · have hstop : ¬ act = .stop := hl1
        rcases hf : fl with _ | f
        · rw [hf] at ih hns'
          simp only [hskip, hstop, hf, if_neg, if_false]
          rw [if_neg (by simp)]
          rw [drainEmits]
          simp only []
          congr 1
          rw [readLine]
          simp only []
          rw [dite_eq_ite]
          exact ih fn tm l hns'
        · rcases hf2 : f fn l with ⟨nl, act2, err2⟩
          have hstop2 : ¬ act2 = .stop := by
            have := hl2 f hf
            rw [hf2] at this
            exact this
          rw [hf] at ih hns'
          simp only [hskip, hstop, hf, hf2, if_neg, if_false]
          by_cases hskip2 : act2 = .skip
          · simp only [hskip2, if_pos rfl]
            rw [readLineAux_stream_irrel fn ts0 ln false gt (some f) (l :: rest) rest rest]
            exact ih fn ts0 ln hns'
          · simp only [hskip2, hstop2, if_neg, if_false]
            rw [if_neg (by simp)]
            rw [drainEmits]
            simp only []
            congr 1
            rw [readLine]
            simp only []
            rw [dite_eq_ite]
            exact ih fn tm nl hns'

/-! ## Interleavings: the shape of the ordered merge's output -/

/-- `Interleaves S out`: `out` is an interleaving of the lists in the
multiset `S` (each list contributed in order, lists interleaved
arbitrarily, exhausted lists dropped). -/
inductive Interleaves : Multiset (List (Int × Line)) → List (Int × Line) → Prop where
  | nil : Interleaves 0 []
  | drop {S : Multiset (List (Int × Line))} {out : List (Int × Line)} :
      Interleaves S out → Interleaves ([] ::ₘ S) out
  | take {S : Multiset (List (Int × Line))} {out : List (Int × Line)}
      {x : Int × Line} {rest : List (Int × Line)} :
      Interleaves (rest ::ₘ S) out → Interleaves ((x :: rest) ::ₘ S) (x :: out)

/-- An interleaving is, as a multiset, the union of its sources. -/
theorem Interleaves.coe_eq {S : Multiset (List (Int × Line))} {out : List (Int × Line)}
    (h : Interleaves S out) :
    (↑out : Multiset (Int × Line)) = S.bind (fun es => (↑es : Multiset (Int × Line))) := by
  induction h with
  | nil => simp
  | drop h ih => rw [Multiset.cons_bind]; simpa using ih
  | take h ih =>
      rw [Multiset.cons_bind, ← Multiset.cons_coe, ← Multiset.cons_coe,
        Multiset.cons_add, ih, Multiset.cons_bind]

/-- Each source list is a sublist of any of its interleavings: the
source-relative order is preserved in the output. -/
theorem Interleaves.sublist {S : Multiset (List (Int × Line))} {out : List (Int × Line)}
    (h : Interleaves S out) : ∀ es ∈ S, es.Sublist out := by
  induction h with
  | nil => intro es hes; simp at hes
  | drop h ih =>
      intro es hes
      rw [Multiset.mem_cons] at hes
      rcases hes with rfl | hes
      · exact List.nil_sublist _
      · exact ih es hes
  | take h ih =>
      intro es hes
      rw [Multiset.mem_cons] at hes
      rcases hes with rfl | hes
      · exact (ih _ (Multiset.mem_cons_self _ _)).cons₂ _
      · exact (ih es (Multiset.mem_cons_of_mem hes)).cons _

/-- The output length of an interleaving is the sum of source lengths. -/
theorem Interleaves.length_eq {S : Multiset (List (Int × Line))} {out : List (Int × Line)}
    (h : Interleaves S out) : out.length = (S.map List.length).sum := by
  induction h with
  | nil => simp
  | drop h ih => simpa using ih
  | take h ih =>
      simp only [Multiset.map_cons, Multiset.sum_cons, List.length_cons] at *
      omega

/-- Exhausted sources (empty lists) can be adjoined freely. -/
theorem Interleaves.add_nils {S : Multiset (List (Int × Line))} {out : List (Int × Line)}
    (h : Interleaves S out) (k : Nat) :
    Interleaves (S + Multiset.replicate k []) out := by
  induction k with
  | zero => simpa using h
  | succ k ih =>
      rw [Multiset.replicate_succ]
      have he : S + ([] ::ₘ Multiset.replicate k []) =
          [] ::ₘ (S + Multiset.replicate k []) := by
        rw [Multiset.add_cons]
      rw [he]
      exact Interleaves.drop ih

/-! ## Main invariants of the merge loop -/

/-- Completeness of the drain loop: on a heap of stop-free cursors the
loop succeeds and its output interleaves the cursors' drains. -/
theorem fileHeapMerge_noStop : ∀ (l : List FileReader), (∀ r ∈ l, NoStop r) →
    (fileHeapMerge l).2 = none ∧
      Interleaves (Multiset.map drainEmits (↑l : Multiset FileReader))
        (fileHeapMerge l).1 := by
  intro l hns
  generalize hgen : hmeasure l = n
  induction n using Nat.strong_induction_on generalizing l with
  | _ n ih =>
  by_cases hl : l.length = 0
  · have hl0 : l = [] := List.length_eq_zero.mp hl
    subst hl0
    rw [fileHeapMerge_nil [] rfl]
    exact ⟨rfl, by simpa using Interleaves.nil⟩
  · rcases hp : heapPop l with ⟨fr, rest⟩
    have hlne : l ≠ [] := fun h0 => hl (by simp [h0])
    have hperm := heapPop_perm l hlne
    rw [hp] at hperm
    simp only [] at hperm
    have hfr_mem : fr ∈ l := hperm.mem_iff.mp (by simp)
    have hfr_ns : NoStop fr := hns fr hfr_mem
    have hrest_ns : ∀ r ∈ rest, NoStop r := fun r hr0 =>
      hns r (hperm.mem_iff.mp (by simp [hr0]))
    have hcl : (↑l : Multiset FileReader) = fr ::ₘ (↑rest : Multiset FileReader) := by
      have h1 : ((fr :: rest : List FileReader) : Multiset FileReader) = ↑l :=
        Multiset.coe_eq_coe.mpr hperm
      rw [← h1, ← Multiset.cons_coe]
    rcases hr : readLine fr with ⟨fr', e⟩
    cases e with
    | some err =>
        exfalso
        have h0 := readLine_noStop_ok fr hfr_ns
        rw [hr] at h0
        simp at h0
    | none =>
        have hdec := hmeasure_lt l fr rest fr' hl hp hr
        have hfr'_ns : NoStop fr' := by
          have := readLine_noStop fr hfr_ns
          rw [hr] at this
          exact this
        have hstep := fileHeapMerge_step l fr rest fr' hl hp hr
        by_cases heof : fr'.eof = true
        · rw [if_pos heof] at hstep hdec
          rw [hstep]
          have hih := ih (hmeasure rest) (by omega) rest hrest_ns rfl
          refine ⟨hih.1, ?_⟩
          rw [hcl, Multiset.map_cons, drainEmits, hr]
          simp only []
          rw [dif_pos heof]
          exact Interleaves.take (Interleaves.drop hih.2)
        · rw [if_neg heof] at hstep hdec
          rw [hstep]
          have hpush_ns : ∀ r ∈ heapPush rest fr', NoStop r := by
            intro r hrm
            have : r ∈ fr' :: rest := (heapPush_perm rest fr').mem_iff.mp hrm
            rcases List.mem_cons.mp this with rfl | hh
            · exact hfr'_ns
            · exact hrest_ns r hh
          have hih := ih (hmeasure (heapPush rest fr')) (by omega) _ hpush_ns rfl
          refine ⟨hih.1, ?_⟩
          have hcp : (↑(heapPush rest fr') : Multiset FileReader) =
              fr' ::ₘ (↑rest : Multiset FileReader) := by
            have h2 := Multiset.coe_eq_coe.mpr (heapPush_perm rest fr')
            rw [h2, ← Multiset.cons_coe]
          rw [hcp, Multiset.map_cons] at hih
          rw [hcl, Multiset.map_cons, drainEmits, hr]
          simp only []
          rw [dif_neg heof]
          exact Interleaves.take hih.2

/-- Sortedness of the drain loop: on a well-formed heap of key-monotone
cursors, the written keys are non-decreasing, and every written key is
bounded below by some heap cursor's timestamp. -/
theorem fileHeapMerge_sorted : ∀ (l : List FileReader), IsHeap l →
    (∀ r ∈ l, KeysMono r) → (∀ r ∈ l, NoNilStop r) →
    List.Chain' (· ≤ ·) ((fileHeapMerge l).1.map Prod.fst) ∧
      (∀ p ∈ (fileHeapMerge l).1, ∃ r ∈ l, r.timestamp ≤ p.1) := by
  intro l hheap hkm hnn
  generalize hgen : hmeasure l = n
  induction n using Nat.strong_induction_on generalizing l with
  | _ n ih =>
  by_cases hl : l.length = 0
  · have hl0 : l = [] := List.length_eq_zero.mp hl
    subst hl0
    rw [fileHeapMerge_nil [] rfl]
    exact ⟨by simp, by simp⟩
  · rcases hp : heapPop l with ⟨fr, rest⟩
    have hlne : l ≠ [] := fun h0 => hl (by simp [h0])
    have hperm := heapPop_perm l hlne
    rw [hp] at hperm
    simp only [] at hperm
    have hfr_mem : fr ∈ l := hperm.mem_iff.mp (by simp)
    have hrest_mem : ∀ r ∈ rest, r ∈ l := fun r hr0 =>
      hperm.mem_iff.mp (by simp [hr0])
    have hmin : ∀ r ∈ rest, fr.timestamp ≤ r.timestamp := by
      have := heapPop_min l hlne hheap
      rw [hp] at this
      simpa using this
    have hrestheap : IsHeap rest := by
      have := heapPop_isHeap l hlne hheap
      rw [hp] at this
      exact this
    rcases hr : readLine fr with ⟨fr', e⟩
    cases e with
    | some err =>
        rw [fileHeapMerge_abort l fr rest fr' err hl hp hr]
        refine ⟨List.chain'_singleton _, ?_⟩
        intro p hploc
        rcases List.mem_singleton.mp hploc with rfl
        exact ⟨fr, hfr_mem, le_refl _⟩
    | none =>
        have hadv := readLine_advance fr fr' (hkm fr hfr_mem) (hnn fr hfr_mem) hr
        have hfr'_nn : NoNilStop fr' := by
          have := readLine_noNilStop fr (hnn fr hfr_mem)
          rw [hr] at this
          exact this
        have hdec := hmeasure_lt l fr rest fr' hl hp hr
        have hstep := fileHeapMerge_step l fr rest fr' hl hp hr
        -- the next heap is well-formed, key-monotone and bounded below by fr
        have hnext :
            IsHeap (if fr'.eof then rest else heapPush rest fr') ∧
              (∀ r ∈ (if fr'.eof then rest else heapPush rest fr'), KeysMono r) ∧
              (∀ r ∈ (if fr'.eof then rest else heapPush rest fr'), NoNilStop r) ∧
              (∀ r ∈ (if fr'.eof then rest else heapPush rest fr'),
                fr.timestamp ≤ r.timestamp) := by
          split
          · exact ⟨hrestheap, fun r hr0 => hkm r (hrest_mem r hr0),
              fun r hr0 => hnn r (hrest_mem r hr0), hmin⟩
          · have hmem : ∀ r ∈ heapPush rest fr', r = fr' ∨ r ∈ rest := by
              intro r hrm
              have : r ∈ fr' :: rest := (heapPush_perm rest fr').mem_iff.mp hrm
              exact List.mem_cons.mp this
            refine ⟨heapPush_isHeap rest fr' hrestheap, ?_, ?_, ?_⟩
            · intro r hrm
              rcases hmem r hrm with rfl | hh
              · exact hadv.1
              · exact hkm r (hrest_mem r hh)
            · intro r hrm
              rcases hmem r hrm with rfl | hh
              · exact hfr'_nn
              · exact hnn r (hrest_mem r hh)
            · intro r hrm
              rcases hmem r hrm with rfl | hh
              · exact hadv.2
              · exact hmin r hh
        have hih := ih (hmeasure (if fr'.eof then rest else heapPush rest fr'))
          (by omega) _ hnext.1 hnext.2.1 hnext.2.2.1 rfl
        rw [hstep]
        constructor
        · rw [List.map_cons, List.chain'_cons']
          refine ⟨?_, hih.1⟩
          intro y hy
          rw [List.head?_map] at hy
          rcases hh : (fileHeapMerge (if fr'.eof then rest else heapPush rest fr')).1.head? with
            _ | p
          · rw [hh] at hy; simp at hy
          · rw [hh] at hy
            simp at hy
            obtain ⟨r, hrm, hrb⟩ := hih.2 p (List.mem_of_mem_head? hh)
            have := hnext.2.2.2 r hrm
            omega
        · intro p hploc
          rcases List.mem_cons.mp hploc with rfl | hh
          · exact ⟨fr, hfr_mem, le_refl _⟩
          · obtain ⟨r, hrm, hrb⟩ := hih.2 p hh
            exact ⟨fr, hfr_mem, le_trans (hnext.2.2.2 r hrm) hrb⟩

/-! ## Priming-loop invariants and top-level `merge` facts -/

/-- On stop-free sources, priming succeeds; the primed cursors' drains
account for every source's accepted records (exhausted sources
contributing empty lists). -/
theorem primeLoop_ok (gt : TimeHandler) (fl : Option FilterHandler) :
    ∀ (rds : List (List Line)) (acc : List FileReader),
    (∀ r ∈ acc, NoStop r) →
    (∀ src ∈ rds, ∀ l ∈ src, LineNoStop gt fl "" l) →
    ∃ h k, primeLoop gt fl acc rds = .ok h ∧ (∀ r ∈ h, NoStop r) ∧
      Multiset.map drainEmits (↑acc : Multiset FileReader) +
          (↑(rds.map (acceptedRecs gt fl "")) : Multiset (List (Int × Line))) =
        Multiset.map drainEmits (↑h : Multiset FileReader) + Multiset.replicate k [] := by
  intro rds
  induction rds with
  | nil =>
      intro acc hacc _
      exact ⟨acc, 0, rfl, hacc, by simp⟩
  | cons src rest ih =>
      intro acc hacc hrds
      have hsrc : ∀ l ∈ src, LineNoStop gt fl "" l := hrds src (by simp)
      have hrest : ∀ s ∈ rest, ∀ l ∈ s, LineNoStop gt fl "" l :=
        fun s hs => hrds s (by simp [hs])
      have hr0ns : NoStop (initReader gt fl src) := hsrc
      rcases hr0 : readLine (initReader gt fl src) with ⟨fr, e⟩
      cases e with
      | some err =>
          exfalso
          have h0 := readLine_noStop_ok (initReader gt fl src) hr0ns
          rw [hr0] at h0
          simp at h0
      | none =>
          have hd : (if (readLine (initReader gt fl src)).1.eof = true then []
              else drainEmits (readLine (initReader gt fl src)).1) =
                acceptedRecs gt fl "" src :=
            drain_eq_accepted gt fl src "" 0 "" hsrc
          rw [hr0] at hd
          simp only [] at hd
          have hunfold : primeLoop gt fl acc (src :: rest) =
              primeLoop gt fl (if fr.eof then acc else heapPush acc fr) rest := by
            rw [primeLoop, hr0]
          by_cases heof : fr.eof = true
          · rw [if_pos heof] at hunfold hd
            obtain ⟨h, k, hok, hh, heq⟩ := ih acc hacc hrest
            refine ⟨h, k + 1, by rw [hunfold]; exact hok, hh, ?_⟩
            rw [List.map_cons, ← Multiset.cons_coe, ← hd, Multiset.add_cons, heq,
              Multiset.replicate_succ, Multiset.add_cons]
          · rw [if_neg heof] at hunfold hd
            have hfr_ns : NoStop fr := by
              have := readLine_noStop (initReader gt fl src) hr0ns
              rw [hr0] at this
              exact this
            have hacc' : ∀ r ∈ heapPush acc fr, NoStop r := by
              intro r hrm
              have : r ∈ fr :: acc := (heapPush_perm acc fr).mem_iff.mp hrm
              rcases List.mem_cons.mp this with rfl | hh
              · exact hfr_ns
              · exact hacc r hh
            obtain ⟨h, k, hok, hh, heq⟩ := ih (heapPush acc fr) hacc' hrest
            refine ⟨h, k, by rw [hunfold]; exact hok, hh, ?_⟩
            have hcp : (↑(heapPush acc fr) : Multiset FileReader) =
                fr ::ₘ (↑acc : Multiset FileReader) := by
              have h2 := Multiset.coe_eq_coe.mpr (heapPush_perm acc fr)
              rw [h2, ← Multiset.cons_coe]
            rw [hcp, Multiset.map_cons, Multiset.cons_add] at heq
            rw [List.map_cons, ← Multiset.cons_coe, ← hd, Multiset.add_cons, heq]

/-- Priming preserves the heap invariant, key-monotonicity and the
non-nil-stop discipline. -/
theorem primeLoop_sorted (gt : TimeHandler) (fl : Option FilterHandler) :
    ∀ (rds : List (List Line)) (acc : List FileReader),
    IsHeap acc → (∀ r ∈ acc, KeysMono r) → (∀ r ∈ acc, NoNilStop r) →
    (∀ src ∈ rds, List.Chain' (· ≤ ·) (src.map (lineKey gt)) ∧
      ∀ l ∈ src, LineNoNilStop gt fl "" l) →
    ∀ h, primeLoop gt fl acc rds = .ok h →
      IsHeap h ∧ (∀ r ∈ h, KeysMono r) ∧ (∀ r ∈ h, NoNilStop r) := by
  intro rds
  induction rds with
  | nil =>
      intro acc hheap hkm hnn _ h hok
      rw [primeLoop] at hok
      cases hok
      exact ⟨hheap, hkm, hnn⟩
  | cons src rest ih =>
      intro acc hheap hkm hnn hrds h hok
      have hsrc := hrds src (by simp)
      have hrest : ∀ s ∈ rest, List.Chain' (· ≤ ·) (s.map (lineKey gt)) ∧
          ∀ l ∈ s, LineNoNilStop gt fl "" l := fun s hs => hrds s (by simp [hs])
      rcases hr0 : readLine (initReader gt fl src) with ⟨fr, e⟩
      rw [primeLoop, hr0] at hok
      cases e with
      | some err => simp at hok
      | none =>
          simp only [] at hok
          by_cases heof : fr.eof = true
          · rw [if_pos heof] at hok
            exact ih acc hheap hkm hnn hrest h hok
          · rw [if_neg heof] at hok
            have hfr_km : KeysMono fr :=
              readLineAux_keysMono (initReader gt fl src) src fr hsrc.1 hsrc.2 hr0
            have hfr_nn : NoNilStop fr := by
              have := readLine_noNilStop (initReader gt fl src) hsrc.2
              rw [hr0] at this
              exact this
            have hmem : ∀ r ∈ heapPush acc fr, r = fr ∨ r ∈ acc := by
              intro r hrm
              exact List.mem_cons.mp ((heapPush_perm acc fr).mem_iff.mp hrm)
            refine ih (heapPush acc fr) (heapPush_isHeap acc fr hheap) ?_ ?_ hrest h hok
            · intro r hrm
              rcases hmem r hrm with rfl | hh
              · exact hfr_km
              · exact hkm r hh
            · intro r hrm
              rcases hmem r hrm with rfl | hh
              · exact hfr_nn
              · exact hnn r hh

/-- Completeness of the ordered merge on stop-free inputs: the run
succeeds and the output is an interleaving of the per-source accepted
records. -/
theorem merge_noStop (readers : List (List Line)) (gt : TimeHandler)
    (fl : Option FilterHandler)
    (hns : ∀ src ∈ readers, ∀ l ∈ src, LineNoStop gt fl "" l) :
    (merge readers gt fl).2 = none ∧
      Interleaves (↑(readers.map (acceptedRecs gt fl "")) :
          Multiset (List (Int × Line))) (merge readers gt fl).1 := by
  obtain ⟨h, k, hok, hh, heq⟩ :=
    primeLoop_ok gt fl readers (heapInit []) (by intro r hr; simp [heapInit, heapInitAux] at hr) hns
  have hmu : merge readers gt fl = fileHeapMerge h := by
    rw [merge, hok]
  have hmain := fileHeapMerge_noStop h hh
  rw [hmu]
  refine ⟨hmain.1, ?_⟩
  have heq' : (↑(readers.map (acceptedRecs gt fl "")) : Multiset (List (Int × Line))) =
      Multiset.map drainEmits (↑h : Multiset FileReader) + Multiset.replicate k [] := by
    have : Multiset.map drainEmits (↑(heapInit []) : Multiset FileReader) = 0 := by
      simp [heapInit, heapInitAux]
    rw [← heq, this, zero_add]
  rw [heq']
  exact hmain.2.add_nils k

/-- Sortedness of the ordered merge: when each source's keys are
non-decreasing and `STOP` always carries an error, the written keys are
globally non-decreasing (also on aborted runs). -/
theorem merge_sorted (readers : List (List Line)) (gt : TimeHandler)
    (fl : Option FilterHandler)
    (hmono : ∀ src ∈ readers, List.Chain' (· ≤ ·) (src.map (lineKey gt)))
    (hnn : ∀ src ∈ readers, ∀ l ∈ src, LineNoNilStop gt fl "" l) :
    List.Chain' (· ≤ ·) ((merge readers gt fl).1.map Prod.fst) := by
  rcases hok : primeLoop gt fl (heapInit []) readers with err | h
  · rw [merge, hok]
    simp
  · have hfacts := primeLoop_sorted gt fl readers (heapInit [])
      (by intro k hk0 hkn; simp [heapInit, heapInitAux] at hkn)
      (by intro r hr; simp [heapInit, heapInitAux] at hr)
      (by intro r hr; simp [heapInit, heapInitAux] at hr)
      (fun src hs => ⟨hmono src hs, hnn src hs⟩) h hok
    have hmu : merge readers gt fl = fileHeapMerge h := by
      rw [merge, hok]
    rw [hmu]
    exact (fileHeapMerge_sorted h hfacts.1 hfacts.2.1 hfacts.2.2).1

/-! ## One iteration of the merge loop, and abort characterization -/

/-- The observable outcome of one iteration of `fileHeap.merge`. -/
inductive MergeStepRes where
  | empty
  | wrote (en : Int × Line) (next : List FileReader)
  | failed (en : Int × Line) (err : String)

/-- One iteration: pop, write-and-flush the popped cursor's record, then
advance it (`readLine`); on error the iteration fails *after* the write. -/
def mergeStep (l : List FileReader) : MergeStepRes :=
  if l.length = 0 then .empty
  else
    match heapPop l with
    | (fr, rest) =>
      match readLine fr with
      | (_, some err) => .failed (fr.timestamp, fr.line) err
      | (fr', none) =>
          .wrote (fr.timestamp, fr.line) (if fr'.eof then rest else heapPush rest fr')

/-- `Reaches l ws l'`: from heap `l` the loop performs some successful
iterations writing `ws`, arriving at heap `l'`. -/
inductive Reaches : List FileReader → List (Int × Line) → List FileReader → Prop where
  | refl (l : List FileReader) : Reaches l [] l
  | step {l : List FileReader} {en : Int × Line} {next l' : List FileReader}
      {ws : List (Int × Line)} :
      mergeStep l = .wrote en next → Reaches next ws l' → Reaches l (en :: ws) l'

theorem mergeStep_empty (l : List FileReader) (hl : l.length = 0) :
    mergeStep l = .empty := by
  rw [mergeStep, if_pos hl]

theorem mergeStep_failed (l : List FileReader) (fr : FileReader)
    (rest : List FileReader) (fr' : FileReader) (err : String)
    (hl : ¬ l.length = 0) (hp : heapPop l = (fr, rest))
    (hr : readLine fr = (fr', some err)) :
    mergeStep l = .failed (fr.timestamp, fr.line) err := by
  rw [mergeStep, if_neg hl, hp]
  simp only []
  rw [hr]

theorem mergeStep_wrote (l : List FileReader) (fr : FileReader)
    (rest : List FileReader) (fr' : FileReader)
    (hl : ¬ l.length = 0) (hp : heapPop l = (fr, rest))
    (hr : readLine fr = (fr', none)) :
    mergeStep l = .wrote (fr.timestamp, fr.line)
      (if fr'.eof then rest else heapPush rest fr') := by
  rw [mergeStep, if_neg hl, hp]
  simp only []
  rw [hr]

/-- `fileHeapMerge` in terms of `mergeStep`. -/
theorem fileHeapMerge_of_step :
    ∀ (l : List FileReader),
      (mergeStep l = .empty → fileHeapMerge l = ([], none)) ∧
      (∀ en next, mergeStep l = .wrote en next →
        fileHeapMerge l = (en :: (fileHeapMerge next).1, (fileHeapMerge next).2)) ∧
      (∀ en err, mergeStep l = .failed en err →
        fileHeapMerge l = ([en], some err)) := by
  intro l
  by_cases hl : l.length = 0
  · refine ⟨fun _ => fileHeapMerge_nil l hl, ?_, ?_⟩
    · intro en next h
      rw [mergeStep_empty l hl] at h
      cases h
    · intro en err h
      rw [mergeStep_empty l hl] at h
      cases h
  · rcases hp : heapPop l with ⟨fr, rest⟩
    rcases hr : readLine fr with ⟨fr', e⟩
    cases e with
    | some err =>
        have hs := mergeStep_failed l fr rest fr' err hl hp hr
        refine ⟨fun h => ?_, fun en next h => ?_, fun en err0 h => ?_⟩
        · rw [hs] at h; cases h
        · rw [hs] at h; cases h
        · rw [hs] at h
          cases h
          exact fileHeapMerge_abort l fr rest fr' err hl hp hr
    | none =>
        have hs := mergeStep_wrote l fr rest fr' hl hp hr
        refine ⟨fun h => ?_, fun en next h => ?_, fun en err0 h => ?_⟩
        · rw [hs] at h; cases h
        · rw [hs] at h
          cases h
          exact fileHeapMerge_step l fr rest fr' hl hp hr
        · rw [hs] at h; cases h

/-- A successful `mergeStep` shrinks the measure. -/
theorem mergeStep_measure {l : List FileReader} {en : Int × Line}
    {next : List FileReader} (h : mergeStep l = .wrote en next) :
    hmeasure next < hmeasure l := by
  by_cases hl : l.length = 0
  · rw [mergeStep_empty l hl] at h; cases h
  · rcases hp : heapPop l with ⟨fr, rest⟩
    rcases hr : readLine fr with ⟨fr', e⟩
    cases e with
    | some err => rw [mergeStep_failed l fr rest fr' err hl hp hr] at h; cases h
    | none =>
        rw [mergeStep_wrote l fr rest fr' hl hp hr] at h
        cases h
        exact hmeasure_lt l fr rest fr' hl hp hr

/-- If the loop can reach `l'` writing `ws` and the next iteration at
`l'` flushes `en` and fails with `err`, the whole run from `l` outputs
exactly `ws ++ [en]` and returns `err`. -/
theorem reaches_abort (l : List FileReader) (ws : List (Int × Line))
    (l' : List FileReader) (hreach : Reaches l ws l') :
    ∀ en err, mergeStep l' = .failed en err →
      fileHeapMerge l = (ws ++ [en], some err) := by
  induction hreach with
  | refl l0 =>
      intro en err hfail
      rw [(fileHeapMerge_of_step l0).2.2 en err hfail]
      simp
  | step hms hr ih =>
      intro en err hfail
      rw [(fileHeapMerge_of_step _).2.1 _ _ hms, ih en err hfail]
      rfl

/-- Abort characterization of the drain loop: the loop returns an error
`err` exactly when some sequence of successful iterations (writing `ws`)
reaches a heap whose next iteration pops a cursor, flushes its record
`en`, and then fails with `err`; in that case the output is exactly
`ws ++ [en]` — nothing before is lost and nothing after is written. -/
theorem fileHeapMerge_abort_iff (l : List FileReader) (out : List (Int × Line))
    (err : String) :
    fileHeapMerge l = (out, some err) ↔
      ∃ ws l' en, Reaches l ws l' ∧ mergeStep l' = .failed en err ∧
        out = ws ++ [en] := by
  constructor
  · intro h
    generalize hgen : hmeasure l = n
    induction n using Nat.strong_induction_on generalizing l out with
    | _ n ih =>
    rcases hms : mergeStep l with _ | ⟨en, next⟩ | ⟨en, err0⟩
    · rw [(fileHeapMerge_of_step l).1 hms] at h
      simp at h
    · have hq := (fileHeapMerge_of_step l).2.1 en next hms
      rw [hq] at h
      have hout : out = en :: (fileHeapMerge next).1 := by
        have := congrArg Prod.fst h
        simpa using this.symm
      have herr : (fileHeapMerge next).2 = some err := by
        have := congrArg Prod.snd h
        simpa using this
      have hnexteq : fileHeapMerge next = ((fileHeapMerge next).1, some err) := by
        rw [← herr]
      obtain ⟨ws, l', en', hreach, hfail, houteq⟩ :=
        ih (hmeasure next) (by have := mergeStep_measure hms; omega)
          next (fileHeapMerge next).1 hnexteq rfl
      exact ⟨en :: ws, l', en', Reaches.step hms hreach, hfail, by rw [hout, houteq]; rfl⟩
    · have hq := (fileHeapMerge_of_step l).2.2 en err0 hms
      rw [hq] at h
      have hout : out = [en] := by
        have := congrArg Prod.fst h
        simpa using this.symm
      have herr : err0 = err := by
        have := congrArg Prod.snd h
        simpa using this
      subst herr
      exact ⟨[], l, en, Reaches.refl l, hms, by rw [hout]; rfl⟩
  · rintro ⟨ws, l', en, hreach, hfail, rfl⟩
    exact reaches_abort l ws l' hreach en err hfail

/-- Abort characterization lifted to `merge`: an erroring run either
failed while priming (nothing written) or while draining (output exactly
the records flushed up to and including the pop preceding the failing
advance). -/
theorem merge_abort_iff (readers : List (List Line)) (gt : TimeHandler)
    (fl : Option FilterHandler) (out : List (Int × Line)) (err : String) :
    merge readers gt fl = (out, some err) ↔
      (primeLoop gt fl (heapInit []) readers = .error err ∧ out = []) ∨
      (∃ h, primeLoop gt fl (heapInit []) readers = .ok h ∧
        ∃ ws l' en, Reaches h ws l' ∧ mergeStep l' = .failed en err ∧
          out = ws ++ [en]) := by
  constructor
  · intro h
    rcases hok : primeLoop gt fl (heapInit []) readers with e | hh
    · rw [merge, hok] at h
      simp only [] at h
      rw [Prod.mk.injEq] at h
      obtain ⟨h1, h2⟩ := h
      simp only [Option.some.injEq] at h2
      subst h2
      exact Or.inl ⟨rfl, h1.symm⟩
    · rw [merge, hok] at h
      simp only [] at h
      exact Or.inr ⟨hh, rfl, (fileHeapMerge_abort_iff hh out err).mp h⟩
  · rintro (⟨herr, rfl⟩ | ⟨hh, hok, ws, l', en, hreach, hfail, rfl⟩)
    · rw [merge, herr]
    · rw [merge, hok]
      simp only []
      exact reaches_abort hh ws l' hreach en err hfail

/-! ## Error origin: every abort error is a strategy's `STOP` error -/

/-- The cursor descends from one of the run's sources: strategy fields as
configured, `filename` the zero value, stream drawn from one source. -/
def Sourced (gt : TimeHandler) (fl : Option FilterHandler)
    (readers : List (List Line)) (r : FileReader) : Prop :=
  r.getTime = gt ∧ r.filter = fl ∧ r.filename = "" ∧
    ∃ src ∈ readers, ∀ x ∈ r.stream, x ∈ src

theorem sourced_readLine (gt : TimeHandler) (fl : Option FilterHandler)
    (readers : List (List Line)) (r : FileReader)
    (h : Sourced gt fl readers r) : Sourced gt fl readers (readLine r).1 := by
  obtain ⟨h1, h2, h3, src, hsrc, hsub⟩ := h
  have hconst := readLineAux_const r r.stream
  have hsuf := readLineAux_suffix r r.stream
  exact ⟨hconst.2.1.trans h1, hconst.2.2.trans h2, hconst.1.trans h3,
    src, hsrc, fun x hx => hsub x (hsuf.subset hx)⟩

theorem primeLoop_sourced (gt : TimeHandler) (fl : Option FilterHandler)
    (readers : List (List Line)) :
    ∀ (rds : List (List Line)) (acc : List FileReader),
    (∀ src ∈ rds, src ∈ readers) → (∀ r ∈ acc, Sourced gt fl readers r) →
    ∀ h, primeLoop gt fl acc rds = .ok h → ∀ r ∈ h, Sourced gt fl readers r := by
  intro rds
  induction rds with
  | nil =>
      intro acc _ hacc h hok
      rw [primeLoop] at hok
      cases hok
      exact hacc
  | cons src rest ih =>
      intro acc hrds hacc h hok
      rcases hr0 : readLine (initReader gt fl src) with ⟨fr, e⟩
      rw [primeLoop, hr0] at hok
      cases e with
      | some err => simp at hok
      | none =>
          simp only [] at hok
          have hfr : Sourced gt fl readers fr := by
            have h0 : Sourced gt fl readers (initReader gt fl src) :=
              ⟨rfl, rfl, rfl, src, hrds src (by simp), fun x hx => hx⟩
            have := sourced_readLine gt fl readers _ h0
            rw [hr0] at this
            exact this
          by_cases heof : fr.eof = true
          · rw [if_pos heof] at hok
            exact ih acc (fun s hs => hrds s (by simp [hs])) hacc h hok
          · rw [if_neg heof] at hok
            refine ih (heapPush acc fr) (fun s hs => hrds s (by simp [hs])) ?_ h hok
            intro r hrm
            rcases List.mem_cons.mp ((heapPush_perm acc fr).mem_iff.mp hrm) with rfl | hh
            · exact hfr
            · exact hacc r hh

theorem reaches_sourced (gt : TimeHandler) (fl : Option FilterHandler)
    (readers : List (List Line)) (l : List FileReader) (ws : List (Int × Line))
    (l' : List FileReader) (hreach : Reaches l ws l')
    (hl : ∀ r ∈ l, Sourced gt fl readers r) :
    ∀ r ∈ l', Sourced gt fl readers r := by
  induction hreach with
  | refl l0 => exact hl
  | step hms hr ih =>
      rename_i l0 en next lfin ws0
      refine fun r hrm => ih ?_ r hrm
      -- the next heap's members descend from l0's
      by_cases h0 : l0.length = 0
      · rw [mergeStep_empty l0 h0] at hms
        cases hms
      · rcases hp : heapPop l0 with ⟨fr, rest⟩
        rcases hrr : readLine fr with ⟨fr', e⟩
        have hlne : l0 ≠ [] := fun hx => h0 (by simp [hx])
        have hperm := heapPop_perm l0 hlne
        rw [hp] at hperm
        simp only [] at hperm
        cases e with
        | some err =>
            rw [mergeStep_failed l0 fr rest fr' err h0 hp hrr] at hms
            cases hms
        | none =>
            rw [mergeStep_wrote l0 fr rest fr' h0 hp hrr] at hms
            cases hms
            intro q hq
            have hfr' : Sourced gt fl readers fr' := by
              have := sourced_readLine gt fl readers fr
                (hl fr (hperm.mem_iff.mp (by simp)))
              rw [hrr] at this
              exact this
            have hrest : ∀ x ∈ rest, Sourced gt fl readers x := fun x hx =>
              hl x (hperm.mem_iff.mp (by simp [hx]))
            split at hq
            · exact hrest q hq
            · rcases List.mem_cons.mp ((heapPush_perm rest fr').mem_iff.mp hq) with rfl | hh
              · exact hfr'
              · exact hrest q hh

/-- A failing iteration's error is the error of a strategy invocation
that returned `STOP` on a raw line of the popped cursor's stream. -/
theorem mergeStep_failed_origin (gt : TimeHandler) (fl : Option FilterHandler)
    (readers : List (List Line)) (l : List FileReader)
    (hl : ∀ r ∈ l, Sourced gt fl readers r) (en : Int × Line) (err : String)
    (h : mergeStep l = .failed en err) :
    ∃ src ∈ readers, ∃ x ∈ src,
      ((gt x).2.1 = .stop ∧ (gt x).2.2 = some err) ∨
      (∃ f, fl = some f ∧ (f "" x).2.1 = .stop ∧ (f "" x).2.2 = some err) := by
  by_cases h0 : l.length = 0
  · rw [mergeStep_empty l h0] at h
    cases h
  · rcases hp : heapPop l with ⟨fr, rest⟩
    rcases hrr : readLine fr with ⟨fr', e⟩
    have hlne : l ≠ [] := fun hx => h0 (by simp [hx])
    have hperm := heapPop_perm l hlne
    rw [hp] at hperm
    simp only [] at hperm
    cases e with
    | none =>
        rw [mergeStep_wrote l fr rest fr' h0 hp hrr] at h
        cases h
    | some err0 =>
        rw [mergeStep_failed l fr rest fr' err0 h0 hp hrr] at h
        cases h
        obtain ⟨h1, h2, h3, src, hsrc, hsub⟩ := hl fr (hperm.mem_iff.mp (by simp))
        obtain ⟨x, hx, hcase⟩ := readLineAux_error_strategy fr fr.stream fr' err hrr
        rw [h1, h2, h3] at hcase
        exact ⟨src, hsrc, x, hsub x hx, hcase⟩

/-- An error propagated while priming also originates from a strategy
`STOP` on a source line. -/
theorem primeLoop_error_origin (gt : TimeHandler) (fl : Option FilterHandler)
    (readers : List (List Line)) :
    ∀ (rds : List (List Line)) (acc : List FileReader),
    (∀ src ∈ rds, src ∈ readers) →
    ∀ err, primeLoop gt fl acc rds = .error err →
    ∃ src ∈ readers, ∃ x ∈ src,
      ((gt x).2.1 = .stop ∧ (gt x).2.2 = some err) ∨
      (∃ f, fl = some f ∧ (f "" x).2.1 = .stop ∧ (f "" x).2.2 = some err) := by
  intro rds
  induction rds with
  | nil =>
      intro acc _ err h
      rw [primeLoop] at h
      cases h
  | cons src rest ih =>
      intro acc hrds err h
      rcases hr0 : readLine (initReader gt fl src) with ⟨fr, e⟩
      rw [primeLoop, hr0] at h
      cases e with
      | some err0 =>
          simp only [Except.error.injEq] at h
          subst h
          obtain ⟨x, hx, hcase⟩ :=
            readLineAux_error_strategy (initReader gt fl src) src fr err0 hr0
          exact ⟨src, hrds src (by simp), x, hx, hcase⟩
      | none =>
          simp only [] at h
          exact ih _ (fun s hs => hrds s (by simp [hs])) err h

/-- Every error the ordered merge returns is the error some strategy
invocation returned together with `STOP`, on a line of some source. -/
theorem merge_abort_origin (readers : List (List Line)) (gt : TimeHandler)
    (fl : Option FilterHandler) (out : List (Int × Line)) (err : String)
    (h : merge readers gt fl = (out, some err)) :
    ∃ src ∈ readers, ∃ x ∈ src,
      ((gt x).2.1 = .stop ∧ (gt x).2.2 = some err) ∨
      (∃ f, fl = some f ∧ (f "" x).2.1 = .stop ∧ (f "" x).2.2 = some err) := by
  rcases (merge_abort_iff readers gt fl out err).mp h with ⟨herr, _⟩ |
    ⟨hh, hok, ws, l', en, hreach, hfail, _⟩
  · exact primeLoop_error_origin gt fl readers readers (heapInit []) (fun s hs => hs)
      err herr
  · have hsrc : ∀ r ∈ l', Sourced gt fl readers r := by
      refine reaches_sourced gt fl readers hh ws l' hreach ?_
      exact primeLoop_sourced gt fl readers readers (heapInit []) (fun s hs => hs)
        (by intro r hr; simp [heapInit, heapInitAux] at hr) hh hok
    exact mergeStep_failed_origin gt fl readers l' hsrc en err hfail

/-! ## `MergeByOption`: configuration, file system and side effects

The byte-stream collaborators (§6 of the design) are abstracted into an
environment: `fs` maps a path to the lines its (possibly gzip-wrapped)
scanner yields, or `none` when `os.Open`/`gzip.NewReader` fails;
`createOk` says whether `os.Create(dstPath)` succeeds; `writeOk` models
per-record write failures of the concurrent writer loop.  `os.Remove`
results are ignored by the code, so deletion is recorded as the list of
paths passed to it. -/

structure Env where
  fs : String → Option (List Line)
  createOk : Bool
  writeOk : Line → Bool

/-- The `Option` struct of the package (renamed: `Option` is taken in
Lean).  Interface-valued fields (`DstWriter`, `ErrChan`, `CTX`) are
modelled by their nil-ness / state. -/
structure MergeOption where
  srcPath : List String := []
  dstPath : String := ""
  dstWriter : Bool := false
  srcGzip : Bool := false
  dstGzip : Bool := false
  deleteSrc : Bool := false
  getTime : Option TimeHandler := none
  filter : Option FilterHandler := none
  goroutine : Nat := 0
  errChan : Bool := false
  ctxDone : Bool := false

inductive MergeErr where
  | needTimeHandler
  | needErrChan
  | openFail (path : String)
  | createFail (path : String)
  | handler (e : String)
deriving DecidableEq, Repr

/-- The source-opening loop of `MergeByOption`: open every path (first
failure aborts the run). -/
def openScanners (env : Env) : List String → Except MergeErr (List (List Line))
  | [] => .ok []
  | p :: rest =>
      match env.fs p with
      | none => .error (.openFail p)
      | some lines =>
          match openScanners env rest with
          | .error e => .error e
          | .ok ls => .ok (lines :: ls)

structure MergeResult where
  res : Option MergeErr
  written : List (Int × Line)
  deleted : List String

/-- `MergeByOption`: nil `GetTime` is rejected first; then sources are
opened, the destination is created (unless a `DstWriter` is supplied),
the ordered merge runs, and on success only, enabled source deletion
removes every source path. -/
def MergeByOption (env : Env) (opt : MergeOption) : MergeResult :=
  match opt.getTime with
  | none => ⟨some .needTimeHandler, [], []⟩
  | some gt =>
      match openScanners env opt.srcPath with
      | .error e => ⟨some e, [], []⟩
      | .ok scanners =>
          if ¬ opt.dstWriter ∧ ¬ env.createOk then ⟨some (.createFail opt.dstPath), [], []⟩
          else
            match merge scanners gt opt.filter with
            | (out, some e) => ⟨some (.handler e), out, []⟩
            | (out, none) =>
                ⟨none, out, if opt.deleteSrc then opt.srcPath else []⟩

/-! ## `QuickMerge`: a sequentialized model of the concurrent mode

`QuickMerge` spawns `Goroutine` workers over a job queue, one job per
openable source, sharing one buffered hand-off channel (`writerChan`)
drained by a writer loop in the main goroutine.  The model fixes the
schedule in which every worker job runs to completion before the main
goroutine proceeds to `os.Create` (legal whenever the buffered channel's
capacity `len(SrcPath)*100` is not exceeded); within one worker,
processing is sequential exactly as in `quickMerge`.  Channel semantics
kept: sending on a closed channel and closing a closed channel are
panics that kill the whole program (`QuickMerge` then never returns). -/

inductive QMErr where
  | openErr (path : String)
  | filterStop (filename : String) (cause : String)
  | createErr (path : String)
  | writeErr (line : Line)
deriving DecidableEq, Repr

/-- Shared state of the hand-off channel, error sink, and panic flag. -/
structure QMState where
  queueClosed : Bool
  queue : List Line
  errs : List QMErr
  panicked : Bool
deriving DecidableEq, Repr

/-- `writer <- resline`: sending on a closed channel panics. -/
def qsend (st : QMState) (line : Line) : QMState :=
  if st.panicked then st
  else if st.queueClosed then { st with panicked := true }
  else { st with queue := st.queue ++ [line] }

/-- `quickMerge(job)`: one worker processing one source.  A filter `STOP`
reports `filter: <file> error <cause>` on the error sink and closes the
*shared* hand-off channel (`close(writer)`); `err.Error()` on a nil
error is itself a panic.  Cancellation is observed before each scan. -/
def quickMerge (fl : Option FilterHandler) (filename : String) (ctxDone : Bool) :
    List Line → QMState → QMState
  | [], st => st
  | line :: rest, st =>
      if st.panicked then st
      else if ctxDone then st
      else
        match fl with
        | none => quickMerge fl filename ctxDone rest (qsend st line)
        | some f =>
            match f filename line with
            | (nl, act, err) =>
              if act = .skip then quickMerge fl filename ctxDone rest st
              else if act = .stop then
                match err with
                | some cause =>
                    let st' := { st with errs := st.errs ++ [QMErr.filterStop filename cause] }
                    if st'.queueClosed then { st' with panicked := true }
                    else { st' with queueClosed := true }
                | none => { st with panicked := true }
              else quickMerge fl filename ctxDone rest (qsend st nl)

/-- The job-dispatch loop: open each source (reporting failures on the
error sink and skipping that source), building one job per source.  The
job's label is `filepath.Base(fp)`, modelled as the path itself (paths
are opaque labels here). -/
def dispatch (env : Env) : List String → List QMErr × List (String × List Line)
  | [] => ([], [])
  | p :: rest =>
      let d := dispatch env rest
      match env.fs p with
      | none => (QMErr.openErr p :: d.1, d.2)
      | some lines => (d.1, (p, lines) :: d.2)

/-- All worker jobs, run to completion in dispatch order (the modelled
schedule), starting from the dispatch-phase error sink contents. -/
def quickWorkerPhase (env : Env) (opt : MergeOption) : QMState :=
  (dispatch env opt.srcPath).2.foldl
    (fun st j => quickMerge opt.filter j.1 opt.ctxDone j.2 st)
    ⟨false, [], (dispatch env opt.srcPath).1, false⟩

/-- The writer loop's drain of the hand-off queue: write-and-flush each
record, reporting write failures on the error sink and continuing. -/
def drainQueue (env : Env) : List Line → List QMErr × List Line
  | [] => ([], [])
  | line :: rest =>
      let d := drainQueue env rest
      if env.writeOk line then (d.1, line :: d.2)
      else (QMErr.writeErr line :: d.1, d.2)

/-- What `QuickMerge` does to the outside world: either some goroutine
panicked / the run deadlocked (no return value), or it returned a value. -/
inductive QMRet where
  | noReturn
  | value (e : Option MergeErr)
deriving DecidableEq, Repr

/-- `QuickMerge` under the modelled schedule: reject a nil error channel;
dispatch jobs; workers drain all jobs; the finished-worker coordinator
closes the hand-off channel (a second close panics); `os.Create` failure
is reported on the error channel and `nil` is returned; a done context
makes the writer loop return `nil` without draining; otherwise the queue
is drained to the destination and `nil` is returned.  With zero workers
the queue is never closed and the writer loop waits forever. -/
def QuickMerge (env : Env) (opt : MergeOption) : QMRet × List QMErr × List Line :=
  if opt.errChan = false then (.value (some .needErrChan), [], [])
  else if opt.goroutine = 0 then
    if env.createOk = false then
      (.value none, (dispatch env opt.srcPath).1 ++ [QMErr.createErr opt.dstPath], [])
    else if opt.ctxDone then (.value none, (dispatch env opt.srcPath).1, [])
    else (.noReturn, (dispatch env opt.srcPath).1, [])
  else
    let st1 := quickWorkerPhase env opt
    let st2 := if st1.panicked then st1
               else if st1.queueClosed then { st1 with panicked := true }
               else { st1 with queueClosed := true }
    if st2.panicked then (.noReturn, st2.errs, [])
    else if env.createOk = false then
      (.value none, st2.errs ++ [QMErr.createErr opt.dstPath], [])
    else if opt.ctxDone then (.value none, st2.errs, [])
    else
      let d := drainQueue env st2.queue
      (.value none, st2.errs ++ d.1, d.2)

/-! ## Concrete strategies and runs used to settle the claims -/

/-- Accepts everything with key 5, except `"s"`: `STOP` with a nil error. -/
def gtSN : TimeHandler := fun l =>
  if l = "s" then (0, Action.stop, none) else (5, Action.nop, none)

/-- Cursor states of the `gtSN` run over `["a", "s"]`. -/
def rA : FileReader := ⟨"", ["s"], 5, "a", false, gtSN, none⟩
def rB : FileReader := ⟨"", [], 5, "a", false, gtSN, none⟩
def rC : FileReader := ⟨"", [], 5, "a", true, gtSN, none⟩

/-- The stop-with-nil-error run: the scan consuming `"s"` returns success
without touching the cursor, which is re-inserted and its record `"a"`
written a second time. -/
theorem run_gtSN : merge [["a", "s"]] gtSN none = ([(5, "a"), (5, "a")], none) := by
  have hprime : primeLoop gtSN none (heapInit []) [["a", "s"]] = .ok [rA] := by
    rw [primeLoop]
    have hr : readLine (initReader gtSN none ["a", "s"]) = (rA, none) := by
      simp [initReader, readLine, readLineAux, gtSN, rA]
    rw [hr]
    simp only []
    rw [if_neg (by simp [rA])]
    rw [primeLoop]
    simp [heapInit, heapInitAux, heapPush, heapUp, rA]
  have hstep1 := fileHeapMerge_step [rA] rA [] rB (by simp)
    (by simp [heapPop, heapDown, lswap, lswapAux, lget])
    (by simp [readLine, readLineAux, gtSN, rA, rB])
  rw [show (if rB.eof = true then ([] : List FileReader) else heapPush [] rB) = [rB] by
    simp [rB, heapPush, heapUp]] at hstep1
  have hstep2 := fileHeapMerge_step [rB] rB [] rC (by simp)
    (by simp [heapPop, heapDown, lswap, lswapAux, lget])
    (by simp [readLine, readLineAux, rB, rC])
  rw [show (if rC.eof = true then ([] : List FileReader) else heapPush [] rC) =
      ([] : List FileReader) by simp [rC]] at hstep2
  rw [merge, hprime]
  simp only []
  rw [hstep1, hstep2, fileHeapMerge_nil [] rfl]
  simp [rA, rB]

/-- Keys: `"s" ↦ -8` (STOP, nil error), `"a" ↦ -7`, `"b" ↦ -5`,
anything else (including the empty record) `↦ 100`. -/
def gtC1 : TimeHandler := fun l =>
  if l = "s" then (-8, Action.stop, none)
  else if l = "a" then (-7, Action.nop, none)
  else if l = "b" then (-5, Action.nop, none)
  else (100, Action.nop, none)

def sA : FileReader := ⟨"", ["a"], 0, "", false, gtC1, none⟩
def sB : FileReader := ⟨"", [], -5, "b", false, gtC1, none⟩
def sBe : FileReader := ⟨"", [], -5, "b", true, gtC1, none⟩
def sA2 : FileReader := ⟨"", [], -7, "a", false, gtC1, none⟩
def sA2e : FileReader := ⟨"", [], -7, "a", true, gtC1, none⟩

/-- The priming-stop-with-nil-error run: source 1's first scan stops with
a nil error, so its cursor enters the heap with the zero timestamp `0`
and zero record `""`; the written keys `-5, 0, -7` are not sorted even
though each source's own keys are non-decreasing. -/
theorem run_gtC1 :
    merge [["s", "a"], ["b"]] gtC1 none =
      ([(-5, "b"), (0, ""), (-7, "a")], none) := by
  have hprime : primeLoop gtC1 none (heapInit []) [["s", "a"], ["b"]] = .ok [sB, sA] := by
    rw [primeLoop]
    have hr1 : readLine (initReader gtC1 none ["s", "a"]) = (sA, none) := by
      simp [initReader, readLine, readLineAux, gtC1, sA]
    rw [hr1]
    simp only []
    rw [if_neg (by simp [sA])]
    rw [primeLoop]
    have hr2 : readLine (initReader gtC1 none ["b"]) = (sB, none) := by
      simp [initReader, readLine, readLineAux, gtC1, sB]
    rw [hr2]
    simp only []
    rw [if_neg (by simp [sB])]
    rw [primeLoop]
    have hpush1 : heapPush (heapInit []) sA = [sA] := by
      simp [heapInit, heapInitAux, heapPush, heapUp]
    rw [hpush1]
    have hpush2 : heapPush [sA] sB = [sB, sA] := by
      simp [heapPush, heapUp, lget, lswap, lswapAux, sA, sB]
    rw [hpush2]
  have hpop1 : heapPop [sB, sA] = (sB, [sA]) := by
    simp [heapPop, heapDown, downChild, lswap, lswapAux, lget, sA, sB]
  have hstep1 := fileHeapMerge_step [sB, sA] sB [sA] sBe (by simp) hpop1
    (by simp [readLine, readLineAux, sB, sBe])
  rw [show (if sBe.eof = true then [sA] else heapPush [sA] sBe) = [sA] by simp [sBe]] at hstep1
  have hstep2 := fileHeapMerge_step [sA] sA [] sA2 (by simp)
    (by simp [heapPop, heapDown, lswap, lswapAux, lget])
    (by simp [readLine, readLineAux, gtC1, sA, sA2])
  rw [show (if sA2.eof = true then ([] : List FileReader) else heapPush [] sA2) = [sA2] by
    simp [sA2, heapPush, heapUp]] at hstep2
  have hstep3 := fileHeapMerge_step [sA2] sA2 [] sA2e (by simp)
    (by simp [heapPop, heapDown, lswap, lswapAux, lget])
    (by simp [readLine, readLineAux, sA2, sA2e])
  rw [show (if sA2e.eof = true then ([] : List FileReader) else heapPush [] sA2e) =
      ([] : List FileReader) by simp [sA2e]] at hstep3
  rw [merge, hprime]
  simp only []
  rw [hstep1, hstep2, hstep3, fileHeapMerge_nil [] rfl]
  simp [sA, sB, sA2]

/-- Accepts everything with key 1 except `"x"`: `STOP` with error `"boom"`. -/
def gtE : TimeHandler := fun l =>
  if l = "x" then (0, Action.stop, some "boom") else (1, Action.nop, none)

def tA : FileReader := ⟨"", ["x", "b"], 1, "a", false, gtE, none⟩
def tA2 : FileReader := ⟨"", ["b"], 1, "a", false, gtE, none⟩

/-- An aborting run: after flushing `"a"`, the advance hits the `STOP`
record `"x"`; the run returns the strategy's error and the output is
exactly the records flushed before the aborting record. -/
theorem run_gtE : merge [["a", "x", "b"]] gtE none = ([(1, "a")], some "boom") := by
  have hprime : primeLoop gtE none (heapInit []) [["a", "x", "b"]] = .ok [tA] := by
    rw [primeLoop]
    have hr : readLine (initReader gtE none ["a", "x", "b"]) = (tA, none) := by
      simp [initReader, readLine, readLineAux, gtE, tA]
    rw [hr]
    simp only []
    rw [if_neg (by simp [tA])]
    rw [primeLoop]
    simp [heapInit, heapInitAux, heapPush, heapUp, tA]
  have habort := fileHeapMerge_abort [tA] tA [] tA2 "boom" (by simp)
    (by simp [heapPop, heapDown, lswap, lswapAux, lget])
    (by simp [readLine, readLineAux, gtE, tA, tA2])
  rw [merge, hprime]
  simp only []
  rw [habort]
  simp [tA]

/-! ## Helper lemmas for the concurrent-mode claims -/

/-- A worker only appends to the error sink. -/
theorem quickMerge_errs_extend (fl : Option FilterHandler) (fn : String) (cd : Bool) :
    ∀ (lines : List Line) (st : QMState),
      ∃ t, (quickMerge fl fn cd lines st).errs = st.errs ++ t := by
  intro lines
  induction lines with
  | nil => intro st; exact ⟨[], by simp [quickMerge]⟩
  | cons line rest ih =>
      intro st
      rw [quickMerge.eq_def]
      simp only []
      by_cases hpan : st.panicked = true
      · rw [if_pos hpan]; exact ⟨[], by simp⟩
      · rw [if_neg hpan]
        by_cases hcd : cd = true
        · rw [if_pos hcd]; exact ⟨[], by simp⟩
        · rw [if_neg hcd]
          rcases hf : fl with _ | f
          · simp only []
            rw [hf] at ih
            obtain ⟨t, ht⟩ := ih (qsend st line)
            refine ⟨t, ?_⟩
            rw [ht]
            have hq : (qsend st line).errs = st.errs := by
              unfold qsend
              split
              · rfl
              · split <;> rfl
            rw [hq]
          · simp only []
            rw [hf] at ih
            rcases hf2 : f fn line with ⟨nl, act, err⟩
            simp only []
            by_cases hskip : act = .skip
            · rw [if_pos (by rw [hskip])]
              exact ih st
            · rw [if_neg hskip]
              by_cases hstop : act = .stop
              · rw [if_pos hstop]
                rcases err with _ | cause
                · exact ⟨[], by simp⟩
                · simp only []
                  split <;> exact ⟨[QMErr.filterStop fn cause], by simp⟩
              · rw [if_neg hstop]
                obtain ⟨t, ht⟩ := ih (qsend st nl)
                refine ⟨t, ?_⟩
                rw [ht]
                have hq : (qsend st nl).errs = st.errs := by
                  unfold qsend
                  split
                  · rfl
                  · split <;> rfl
                rw [hq]

/-- A fold of workers only appends to the error sink. -/
theorem quickFold_errs_extend (fl : Option FilterHandler) (cd : Bool) :
    ∀ (jobs : List (String × List Line)) (st0 : QMState),
      ∃ t, (jobs.foldl (fun st j => quickMerge fl j.1 cd j.2 st) st0).errs =
        st0.errs ++ t := by
  intro jobs
  induction jobs with
  | nil => intro st0; exact ⟨[], by simp⟩
  | cons j rest ih =>
      intro st0
      simp only [List.foldl_cons]
      obtain ⟨t1, ht1⟩ := quickMerge_errs_extend fl j.1 cd j.2 st0
      obtain ⟨t2, ht2⟩ := ih (quickMerge fl j.1 cd j.2 st0)
      exact ⟨t1 ++ t2, by rw [ht2, ht1, List.append_assoc]⟩

/-- The whole worker phase only appends to the dispatch-phase errors. -/
theorem quickWorkerPhase_errs_extend (env : Env) (opt : MergeOption) :
    ∃ t, (quickWorkerPhase env opt).errs = (dispatch env opt.srcPath).1 ++ t := by
  rw [quickWorkerPhase]
  obtain ⟨t, ht⟩ := quickFold_errs_extend opt.filter opt.ctxDone
    (dispatch env opt.srcPath).2
    ⟨false, [], (dispatch env opt.srcPath).1, false⟩
  exact ⟨t, ht⟩

/-- An unopenable source's error is reported during dispatch. -/
theorem dispatch_openErr (env : Env) :
    ∀ (paths : List String) (p : String), p ∈ paths → env.fs p = none →
      QMErr.openErr p ∈ (dispatch env paths).1 := by
  intro paths
  induction paths with
  | nil => intro p hp; simp at hp
  | cons q rest ih =>
      intro p hp hfs
      rw [dispatch]
      rcases List.mem_cons.mp hp with rfl | hh
      · rw [hfs]
        simp
      · rcases hq : env.fs q with _ | lines
        · simp only []
          exact List.mem_cons_of_mem _ (ih p hh hfs)
        · simp only []
          exact ih p hh hfs

/-- The possible shapes of `QuickMerge`'s observable result with an error
channel present: it either returns `nil` or does not return at all. -/
theorem QuickMerge_shape (env : Env) (opt : MergeOption) (he : opt.errChan = true) :
    (QuickMerge env opt).1 = QMRet.value none ∨ (QuickMerge env opt).1 = QMRet.noReturn := by
  rw [QuickMerge, if_neg (by simp [he])]
  by_cases hg : opt.goroutine = 0
  · rw [if_pos hg]
    by_cases hc : env.createOk = false
    · rw [if_pos hc]; left; rfl
    · rw [if_neg hc]
      by_cases hd : opt.ctxDone = true
      · rw [if_pos hd]; left; rfl
      · rw [if_neg hd]; right; rfl
  · rw [if_neg hg]
    simp only []
    by_cases hp : (quickWorkerPhase env opt).panicked = true
    · rw [if_pos hp, if_pos hp]
      right; rfl
    · rw [if_neg hp]
      by_cases hq : (quickWorkerPhase env opt).queueClosed = true
      · rw [if_pos hq, if_pos (by simp)]
        right; rfl
      · rw [if_neg hq, if_neg (by simp [hp])]
        by_cases hc : env.createOk = false
        · rw [if_pos hc]; left; rfl
        · rw [if_neg hc]
          by_cases hd : opt.ctxDone = true
          · rw [if_pos hd]; left; rfl
          · rw [if_neg hd]; left; rfl

/-- The error-sink trace of `QuickMerge` extends the dispatch trace. -/
theorem QuickMerge_errs_extend (env : Env) (opt : MergeOption) (he : opt.errChan = true) :
    ∃ t, (QuickMerge env opt).2.1 = (dispatch env opt.srcPath).1 ++ t := by
  rw [QuickMerge, if_neg (by simp [he])]
  by_cases hg : opt.goroutine = 0
  · rw [if_pos hg]
    by_cases hc : env.createOk = false
    · rw [if_pos hc]; exact ⟨[QMErr.createErr opt.dstPath], rfl⟩
    · rw [if_neg hc]
      by_cases hd : opt.ctxDone = true
      · rw [if_pos hd]; exact ⟨[], by simp⟩
      · rw [if_neg hd]; exact ⟨[], by simp⟩
  · rw [if_neg hg]
    simp only []
    obtain ⟨t, ht⟩ := quickWorkerPhase_errs_extend env opt
    by_cases hp : (quickWorkerPhase env opt).panicked = true
    · rw [if_pos hp, if_pos hp]
      exact ⟨t, ht⟩
    · rw [if_neg hp]
      by_cases hq : (quickWorkerPhase env opt).queueClosed = true
      · rw [if_pos hq, if_pos (by simp)]
        exact ⟨t, by simpa using ht⟩
      · rw [if_neg hq, if_neg (by simp [hp])]
        by_cases hc : env.createOk = false
        · rw [if_pos hc]
          exact ⟨t ++ [QMErr.createErr opt.dstPath], by
            simp only []
            rw [ht, List.append_assoc]⟩
        · rw [if_neg hc]
          by_cases hd : opt.ctxDone = true
          · rw [if_pos hd]
            exact ⟨t, by simpa using ht⟩
          · rw [if_neg hd]
            refine ⟨t ++ (drainQueue env (quickWorkerPhase env opt).queue).1, ?_⟩
            simp only []
            rw [ht, List.append_assoc]

/-! ## Line provenance: every written line was accepted, on every run

The `readLine` loop assigns `fu.line` only when a scanned line is
accepted by the time strategy and (when configured) the filter strategy;
a skipped line is dropped by `continue` and a `STOP` leaves the cursor
untouched.  Hence, on every run — aborting and nil-error-`STOP` runs
included — each written line is either the cursor's zero value `""` or
the accepted (possibly filter-rewritten) form of some source record on
which neither strategy returned `SKIP`. -/

/-- `l` is the line the strategies accept for the raw source record `x`:
the time strategy returns neither `SKIP` nor `STOP` on `x`, and `l` is
`x` itself (no filter) or the configured filter's rewrite of `x`, the
filter returning neither `SKIP` nor `STOP`. -/
def AcceptedFrom (gt : TimeHandler) (fl : Option FilterHandler) (x : Line) (l : Line) :
    Prop :=
  (gt x).2.1 ≠ .skip ∧ (gt x).2.1 ≠ .stop ∧
    ((fl = none ∧ l = x) ∨
      ∃ f, fl = some f ∧ (f "" x).2.1 ≠ .skip ∧ (f "" x).2.1 ≠ .stop ∧ l = (f "" x).1)

/-- Cursor invariant: the cursor descends from the run's sources and its
current `line` is the zero value or accepted from some source record. -/
def LineSourced (gt : TimeHandler) (fl : Option FilterHandler)
    (readers : List (List Line)) (r : FileReader) : Prop :=
  Sourced gt fl readers r ∧
    (r.line = "" ∨ ∃ src ∈ readers, ∃ x ∈ src, AcceptedFrom gt fl x r.line)

/-- The scan loop leaves `line` unchanged (EOF, `STOP`) or sets it to the
accepted form of one of the scanned lines. -/
theorem readLineAux_line (fu : FileReader) (hfn : fu.filename = "") :
    ∀ t : List Line, (readLineAux fu t).1.line = fu.line ∨
      ∃ x ∈ t, AcceptedFrom fu.getTime fu.filter x (readLineAux fu t).1.line := by
  intro t
  induction t with
  | nil =>
      left
      rw [readLineAux]
  | cons line rest ih =>
      rw [readLineAux]
      rcases hg : fu.getTime line with ⟨tm, act, err⟩
      simp only []
      by_cases hskip : act = .skip
      · rw [if_pos hskip]
        rcases ih with h | ⟨x, hx, hacc⟩
        · left; exact h
        · right; exact ⟨x, by simp [hx], hacc⟩
      · rw [if_neg hskip]
        by_cases hstop : act = .stop
        · rw [if_pos hstop]
          left
          rfl
        · rw [if_neg hstop]
          rcases hf : fu.filter with _ | f
          · simp only []
            right
            refine ⟨line, by simp, ?_, ?_, Or.inl ⟨rfl, rfl⟩⟩
            · rw [hg]; exact hskip
            · rw [hg]; exact hstop
          · simp only []
            rcases hf2 : f fu.filename line with ⟨newline, act2, err2⟩
            simp only []
            by_cases hskip2 : act2 = .skip
            · rw [if_pos hskip2]
              rcases ih with h | ⟨x, hx, hacc⟩
              · left; exact h
              · right
                rw [hf] at hacc
                exact ⟨x, by simp [hx], hacc⟩
            · rw [if_neg hskip2]
              by_cases hstop2 : act2 = .stop
              · rw [if_pos hstop2]
                left
                rfl
              · rw [if_neg hstop2]
                right
                refine ⟨line, by simp, ?_, ?_, Or.inr ⟨f, rfl, ?_, ?_, ?_⟩⟩
                · rw [hg]; exact hskip
                · rw [hg]; exact hstop
                · rw [← hfn, hf2]; exact hskip2
                · rw [← hfn, hf2]; exact hstop2
                · rw [← hfn, hf2]

theorem lineSourced_readLine (gt : TimeHandler) (fl : Option FilterHandler)
    (readers : List (List Line)) (r : FileReader)
    (h : LineSourced gt fl readers r) : LineSourced gt fl readers (readLine r).1 := by
  obtain ⟨hs, hline⟩ := h
  refine ⟨sourced_readLine gt fl readers r hs, ?_⟩
  obtain ⟨hgt, hfl, hfn, src, hsrc, hsub⟩ := hs
  rcases readLineAux_line r hfn r.stream with h | ⟨x, hx, hacc⟩
  · rw [readLine, h]
    exact hline
  · right
    refine ⟨src, hsrc, x, hsub x hx, ?_⟩
    rw [readLine, ← hgt, ← hfl]
    exact hacc

/-- Every record the heap-drain loop outputs — also on aborting runs —
carries the zero-value line or an accepted line. -/
theorem fileHeapMerge_lineSourced (gt : TimeHandler) (fl : Option FilterHandler)
    (readers : List (List Line)) :
    ∀ (l : List FileReader), (∀ r ∈ l, LineSourced gt fl readers r) →
    ∀ p ∈ (fileHeapMerge l).1,
      p.2 = "" ∨ ∃ src ∈ readers, ∃ x ∈ src, AcceptedFrom gt fl x p.2 := by
  intro l hl
  generalize hgen : hmeasure l = n
  induction n using Nat.strong_induction_on generalizing l with
  | _ n ih =>
  by_cases h0 : l.length = 0
  · rw [fileHeapMerge_nil l h0]
    simp
  · rcases hp : heapPop l with ⟨fr, rest⟩
    have hlne : l ≠ [] := fun hx => h0 (by simp [hx])
    have hperm := heapPop_perm l hlne
    rw [hp] at hperm
    simp only [] at hperm
    have hfr : LineSourced gt fl readers fr := hl fr (hperm.mem_iff.mp (by simp))
    have hrest : ∀ r ∈ rest, LineSourced gt fl readers r := fun r hrm =>
      hl r (hperm.mem_iff.mp (by simp [hrm]))
    rcases hr : readLine fr with ⟨fr', e⟩
    cases e with
    | some err =>
        rw [fileHeapMerge_abort l fr rest fr' err h0 hp hr]
        intro p hpmem
        simp only [List.mem_singleton] at hpmem
        subst hpmem
        exact hfr.2
    | none =>
        have hdec := hmeasure_lt l fr rest fr' h0 hp hr
        rw [fileHeapMerge_step l fr rest fr' h0 hp hr]
        intro p hpmem
        rcases List.mem_cons.mp hpmem with rfl | hpm
        · exact hfr.2
        · have hfr' : LineSourced gt fl readers fr' := by
            have := lineSourced_readLine gt fl readers fr hfr
            rw [hr] at this
            exact this
          by_cases heof : fr'.eof = true
          · rw [if_pos heof] at hpm hdec
            exact ih (hmeasure rest) (by omega) rest hrest rfl p hpm
          · rw [if_neg heof] at hpm hdec
            have hpush : ∀ r ∈ heapPush rest fr', LineSourced gt fl readers r := by
              intro r hrm
              rcases List.mem_cons.mp ((heapPush_perm rest fr').mem_iff.mp hrm)
                with rfl | hh
              · exact hfr'
              · exact hrest r hh
            exact ih (hmeasure (heapPush rest fr')) (by omega) _ hpush rfl p hpm

/-- Priming produces only `LineSourced` cursors. -/
theorem primeLoop_lineSourced (gt : TimeHandler) (fl : Option FilterHandler)
    (readers : List (List Line)) :
    ∀ (rds : List (List Line)) (acc : List FileReader),
    (∀ src ∈ rds, src ∈ readers) → (∀ r ∈ acc, LineSourced gt fl readers r) →
    ∀ h, primeLoop gt fl acc rds = .ok h → ∀ r ∈ h, LineSourced gt fl readers r := by
  intro rds
  induction rds with
  | nil =>
      intro acc _ hacc h hok
      rw [primeLoop] at hok
      cases hok
      exact hacc
  | cons src rest ih =>
      intro acc hrds hacc h hok
      rcases hr0 : readLine (initReader gt fl src) with ⟨fr, e⟩
      rw [primeLoop, hr0] at hok
      cases e with
      | some err => simp at hok
      | none =>
          simp only [] at hok
          have hfr : LineSourced gt fl readers fr := by
            have h0 : LineSourced gt fl readers (initReader gt fl src) :=
              ⟨⟨rfl, rfl, rfl, src, hrds src (by simp), fun x hx => hx⟩, Or.inl rfl⟩
            have := lineSourced_readLine gt fl readers _ h0
            rw [hr0] at this
            exact this
          by_cases heof : fr.eof = true
          · rw [if_pos heof] at hok
            exact ih acc (fun s hs => hrds s (by simp [hs])) hacc h hok
          · rw [if_neg heof] at hok
            refine ih (heapPush acc fr) (fun s hs => hrds s (by simp [hs])) ?_ h hok
            intro r hrm
            rcases List.mem_cons.mp ((heapPush_perm acc fr).mem_iff.mp hrm) with rfl | hh
            · exact hfr
            · exact hacc r hh

/-- On every run of the ordered merge, each output record's line is the
zero value `""` or the accepted form of some source record on which
neither strategy returned `SKIP` (nor `STOP`). -/
theorem merge_lineSourced (readers : List (List Line)) (gt : TimeHandler)
    (fl : Option FilterHandler) :
    ∀ p ∈ (merge readers gt fl).1,
      p.2 = "" ∨ ∃ src ∈ readers, ∃ x ∈ src, AcceptedFrom gt fl x p.2 := by
  intro p hp
  rw [merge] at hp
  rcases hpl : primeLoop gt fl (heapInit []) readers with e | h
  · rw [hpl] at hp
    simp at hp
  · rw [hpl] at hp
    simp only [] at hp
    refine fileHeapMerge_lineSourced gt fl readers h ?_ p hp
    refine primeLoop_lineSourced gt fl readers readers (heapInit [])
      (fun s hs => hs) ?_ h hpl
    intro r hr0
    simp [heapInit, heapInitAux] at hr0

/-- Skips the empty line, `STOP` with a nil error on `"s"`, accepts the
rest with key 1. -/
def gt7 : TimeHandler := fun l =>
  if l = "s" then (0, Action.stop, none)
  else if l = "" then (7, Action.skip, none)
  else (1, Action.nop, none)

/-- Cursor states of the `gt7` run over `[["s"], [""]]`. -/
def u1 : FileReader := ⟨"", [], 0, "", false, gt7, none⟩
def u1e : FileReader := ⟨"", [], 0, "", true, gt7, none⟩
def u2e : FileReader := ⟨"", [], 0, "", true, gt7, none⟩

/-- The priming `STOP`-with-nil-error on source 1 leaves its cursor at
the zero value; the zero-value record `""` — byte-for-byte the very line
source 2's time strategy skips — is flushed to the output. -/
theorem run_gt7 : merge [["s"], [""]] gt7 none = ([(0, "")], none) := by
  have hprime : primeLoop gt7 none (heapInit []) [["s"], [""]] = .ok [u1] := by
    rw [primeLoop]
    have hr1 : readLine (initReader gt7 none ["s"]) = (u1, none) := by
      simp [initReader, readLine, readLineAux, gt7, u1]
    rw [hr1]
    simp only []
    rw [if_neg (by simp [u1])]
    rw [primeLoop]
    have hr2 : readLine (initReader gt7 none [""]) = (u2e, none) := by
      simp [initReader, readLine, readLineAux, gt7, u2e]
    rw [hr2]
    simp only []
    rw [if_pos (by simp [u2e])]
    rw [primeLoop]
    have hpush1 : heapPush (heapInit []) u1 = [u1] := by
      simp [heapInit, heapInitAux, heapPush, heapUp]
    rw [hpush1]
  have hstep1 := fileHeapMerge_step [u1] u1 [] u1e (by simp)
    (by simp [heapPop, heapDown, lswap, lswapAux, lget])
    (by simp [readLine, readLineAux, u1, u1e])
  rw [show (if u1e.eof = true then ([] : List FileReader) else heapPush [] u1e) =
      ([] : List FileReader) by simp [u1e]] at hstep1
  rw [merge, hprime]
  simp only []
  rw [hstep1, fileHeapMerge_nil [] rfl]
  simp [u1]

/-! ## Concrete fixtures for the concurrent-mode claims -/

def qEnvA : Env :=
  ⟨fun p => if p = "s1" then some ["a", "bad"]
    else if p = "s2" then some ["x", "y"] else none, true, fun _ => true⟩

def qFilterStop : FilterHandler := fun _ l =>
  if l = "bad" then (l, Action.stop, some "boom") else (l, Action.nop, none)

def qOptA : MergeOption :=
  { srcPath := ["s1", "s2"], dstPath := "d", filter := some qFilterStop,
    goroutine := 1, errChan := true }

def qEnvC : Env :=
  ⟨fun p => if p = "s2" then some ["x", "y"] else none, false, fun _ => true⟩

def qOptC : MergeOption :=
  { srcPath := ["s2"], dstPath := "d", goroutine := 2, errChan := true }

def qOptN : MergeOption :=
  { srcPath := ["s2"], dstPath := "d", goroutine := 1, errChan := true }

/-! ## The claims -/

/-- C1 (counterexample): both sources have non-decreasing keys under
`gtC1` (`[-8, -7]` and `[-5]`), yet the ordered merge writes keys
`-5, 0, -7` — not non-decreasing (also when keys are recomputed from the
written bytes).  The `STOP`-with-nil-error on source 1's first record
lets its cursor enter the heap with the zero timestamp. -/
theorem claim_C1_cex :
    (∀ src ∈ [["s", "a"], ["b"]], List.Chain' (· ≤ ·) (src.map (lineKey gtC1))) ∧
    merge [["s", "a"], ["b"]] gtC1 none = ([(-5, "b"), (0, ""), (-7, "a")], none) ∧
    ¬ List.Chain' (· ≤ ·)
        (([((-5 : Int), ("b" : Line)), (0, ""), (-7, "a")]).map Prod.fst) ∧
    ¬ List.Chain' (· ≤ ·)
        (([((-5 : Int), ("b" : Line)), (0, ""), (-7, "a")]).map (fun p => (gtC1 p.2).1)) := by
  refine ⟨?_, run_gtC1, ?_, ?_⟩
  · intro src hsrc
    rcases List.mem_cons.mp hsrc with rfl | hsrc
    · simp [lineKey, gtC1]
    · rcases List.mem_cons.mp hsrc with rfl | hsrc
      · simp [lineKey, gtC1]
      · simp at hsrc
  · simp
  · simp [gtC1]

/-- C1 (amended): for sources whose keys (as returned by the time
strategy) are non-decreasing within each source, *provided no strategy
returns `STOP` with a nil error*, the keys of the records written by the
ordered merge are globally non-decreasing (on aborted runs included). -/
theorem claim_C1 (readers : List (List Line)) (gt : TimeHandler)
    (fl : Option FilterHandler)
    (hmono : ∀ src ∈ readers, List.Chain' (· ≤ ·) (src.map (lineKey gt)))
    (hnn : ∀ src ∈ readers, ∀ l ∈ src, LineNoNilStop gt fl "" l) :
    List.Chain' (· ≤ ·) ((merge readers gt fl).1.map Prod.fst) :=
  merge_sorted readers gt fl hmono hnn

theorem claim_C1_witness :
    (∀ src ∈ [["a"], ["b"]], List.Chain' (· ≤ ·) (src.map (lineKey gtE))) ∧
    (∀ src ∈ [["a"], ["b"]], ∀ l ∈ src, LineNoNilStop gtE none "" l) ∧
    List.Chain' (· ≤ ·) ((merge [["a"], ["b"]] gtE none).1.map Prod.fst) := by
  have hmono : ∀ src ∈ [["a"], ["b"]], List.Chain' (· ≤ ·) (src.map (lineKey gtE)) := by
    intro src hsrc
    rcases List.mem_cons.mp hsrc with rfl | hsrc
    · simp [lineKey, gtE]
    · rcases List.mem_cons.mp hsrc with rfl | hsrc
      · simp [lineKey, gtE]
      · simp at hsrc
  have hnn : ∀ src ∈ [["a"], ["b"]], ∀ l ∈ src, LineNoNilStop gtE none "" l := by
    intro src hsrc l hl
    refine ⟨?_, ?_⟩
    · intro hstop
      rcases List.mem_cons.mp hsrc with rfl | hsrc
      · simp at hl
        subst hl
        simp [gtE] at hstop
      · rcases List.mem_cons.mp hsrc with rfl | hsrc
        · simp at hl
          subst hl
          simp [gtE] at hstop
        · simp at hsrc
    · intro f hf
      simp at hf
  exact ⟨hmono, hnn, claim_C1 [["a"], ["b"]] gtE none hmono hnn⟩

/-- C2 (counterexample): the run with the `STOP`-nil strategy `gtSN`
returns success, yet the record `"a"`, accepted once, appears twice in
the output — the output is not the accepted records each exactly once. -/
theorem claim_C2_cex :
    merge [["a", "s"]] gtSN none = ([(5, "a"), (5, "a")], none) ∧
    acceptedRecs gtSN none "" ["a", "s"] = [(5, "a")] ∧
    ([((5 : Int), ("a" : Line)), (5, "a")].length ≠
      ([["a", "s"]].map (fun src => (acceptedRecs gtSN none "" src).length)).sum) :=
  ⟨run_gtSN, by decide, by decide⟩

/-- C2 (amended): for sources on which no strategy invocation returns
`STOP`, the ordered merge succeeds and the output contains exactly the
accepted records of all sources — equal as multisets, each source's
order preserved (its accepted records form a sublist of the output), the
output count is the sum of per-source accepted counts, and all-empty (or
zero) sources give empty output. -/
theorem claim_C2 (readers : List (List Line)) (gt : TimeHandler)
    (fl : Option FilterHandler)
    (hns : ∀ src ∈ readers, ∀ l ∈ src, LineNoStop gt fl "" l) :
    (merge readers gt fl).2 = none ∧
    (↑(merge readers gt fl).1 : Multiset (Int × Line)) =
      (↑(readers.map (acceptedRecs gt fl "")) : Multiset (List (Int × Line))).bind
        (fun es => (↑es : Multiset (Int × Line))) ∧
    (∀ src ∈ readers, (acceptedRecs gt fl "" src).Sublist (merge readers gt fl).1) ∧
    (merge readers gt fl).1.length =
      (readers.map (fun src => (acceptedRecs gt fl "" src).length)).sum ∧
    ((∀ src ∈ readers, src = []) → (merge readers gt fl).1 = []) := by
  obtain ⟨hsucc, hint⟩ := merge_noStop readers gt fl hns
  refine ⟨hsucc, hint.coe_eq, ?_, ?_, ?_⟩
  · intro src hsrc
    exact hint.sublist _ (by
      rw [Multiset.mem_coe]
      exact List.mem_map_of_mem _ hsrc)
  · have := hint.length_eq
    rw [Multiset.map_coe, Multiset.sum_coe, List.map_map] at this
    simpa [Function.comp] using this
  · intro hempty
    have hlen := hint.length_eq
    rw [Multiset.map_coe, Multiset.sum_coe, List.map_map] at hlen
    have hzero : (readers.map (List.length ∘ acceptedRecs gt fl "")).sum = 0 := by
      apply List.sum_eq_zero
      intro x hx
      obtain ⟨src, hsrc, rfl⟩ := List.mem_map.mp hx
      have hsrc0 : src = [] := hempty src hsrc
      subst hsrc0
      simp [acceptedRecs]
    rw [hzero] at hlen
    exact List.length_eq_zero.mp hlen

theorem claim_C2_witness :
    (∀ src ∈ [["a"], ["b"]], ∀ l ∈ src, LineNoStop gtE none "" l) ∧
    ((merge [["a"], ["b"]] gtE none).2 = none ∧
      (↑(merge [["a"], ["b"]] gtE none).1 : Multiset (Int × Line)) =
        (↑([["a"], ["b"]].map (acceptedRecs gtE none "")) :
            Multiset (List (Int × Line))).bind (fun es => (↑es : Multiset (Int × Line))) ∧
      (∀ src ∈ [["a"], ["b"]],
        (acceptedRecs gtE none "" src).Sublist (merge [["a"], ["b"]] gtE none).1) ∧
      (merge [["a"], ["b"]] gtE none).1.length =
        ([["a"], ["b"]].map (fun src => (acceptedRecs gtE none "" src).length)).sum ∧
      ((∀ src ∈ [["a"], ["b"]], src = []) → (merge [["a"], ["b"]] gtE none).1 = [])) := by
  have hns : ∀ src ∈ [["a"], ["b"]], ∀ l ∈ src, LineNoStop gtE none "" l := by
    intro src hsrc l hl
    refine ⟨?_, ?_⟩
    · rcases List.mem_cons.mp hsrc with rfl | hsrc
      · simp at hl
        subst hl
        simp [gtE]
      · rcases List.mem_cons.mp hsrc with rfl | hsrc
        · simp at hl
          subst hl
          simp [gtE]
        · simp at hsrc
    · intro f hf
      simp at hf
  exact ⟨hns, claim_C2 [["a"], ["b"]] gtE none hns⟩

/-- C3 (counterexample): `gtSN` returns `STOP` on the record `"s"`, but
the run does not terminate with an error: it writes the already-flushed
record a second time, so the output is strictly more than the records
flushed before the aborting record (`[(5, "a")]`). -/
theorem claim_C3_cex :
    gtSN "s" = (0, Action.stop, none) ∧
    merge [["a", "s"]] gtSN none = ([(5, "a"), (5, "a")], none) ∧
    [((5 : Int), ("a" : Line)), (5, "a")] ≠ [((5 : Int), ("a" : Line))] :=
  ⟨by decide, run_gtSN, by decide⟩

/-- C3 (amended): when a strategy invocation returns `STOP` with a
*non-nil* error, the ordered merge terminates returning that error, and
the output is byte-for-byte exactly the records flushed before the
aborting record: an erroring run is precisely a sequence of successful
iterations writing `ws`, then one iteration that flushes its popped
record `en` and fails, with output exactly `ws ++ [en]`; and the
returned error is the error some strategy invocation returned with
`STOP` on a source record. -/
theorem claim_C3 :
    (∀ (readers : List (List Line)) (gt : TimeHandler) (fl : Option FilterHandler)
        (out : List (Int × Line)) (err : String),
      merge readers gt fl = (out, some err) ↔
        (primeLoop gt fl (heapInit []) readers = .error err ∧ out = []) ∨
        (∃ h, primeLoop gt fl (heapInit []) readers = .ok h ∧
          ∃ ws l' en, Reaches h ws l' ∧ mergeStep l' = .failed en err ∧
            out = ws ++ [en])) ∧
    (∀ (readers : List (List Line)) (gt : TimeHandler) (fl : Option FilterHandler)
        (out : List (Int × Line)) (err : String),
      merge readers gt fl = (out, some err) →
      ∃ src ∈ readers, ∃ x ∈ src,
        ((gt x).2.1 = .stop ∧ (gt x).2.2 = some err) ∨
        (∃ f, fl = some f ∧ (f "" x).2.1 = .stop ∧ (f "" x).2.2 = some err)) :=
  ⟨merge_abort_iff, merge_abort_origin⟩

theorem claim_C3_witness :
    merge [["a", "x", "b"]] gtE none = ([(1, "a")], some "boom") ∧
    (∃ src ∈ [["a", "x", "b"]], ∃ x ∈ src,
      ((gtE x).2.1 = .stop ∧ (gtE x).2.2 = some "boom") ∨
      (∃ f, (none : Option FilterHandler) = some f ∧ (f "" x).2.1 = .stop ∧
        (f "" x).2.2 = some "boom")) :=
  ⟨run_gtE, claim_C3.2 [["a", "x", "b"]] gtE none [(1, "a")] "boom" run_gtE⟩

/-- C4 (code bug): a filter `STOP` on one record of source `s1` makes the
worker close the *shared* hand-off queue.  Under the modelled schedule
sibling `s2`'s worker then panics sending on the closed channel (and with
one source the finished-worker coordinator's own `close` panics): the
whole run dies, sibling records `"x", "y"` never reach the output, and
the queue was closed long before every worker was done — contradicting
the specified per-source isolation. -/
theorem claim_C4 :
    qFilterStop "s1" "bad" = ("bad", Action.stop, some "boom") ∧
    QuickMerge qEnvA qOptA = (QMRet.noReturn, [QMErr.filterStop "s1" "boom"], []) ∧
    (quickWorkerPhase qEnvA qOptA).queueClosed = true ∧
    (quickWorkerPhase qEnvA qOptA).panicked = true := by
  refine ⟨by decide, ?_, by decide, by decide⟩
  decide

/-- C5 (counterexample): with an uncreatable destination, the concurrent
merge does not abort before any worker starts: the worker phase has
already handed off both records of `s2` when the `os.Create` failure is
finally detected, and the run returns `nil` (reporting the failure only
on the error sink). -/
theorem claim_C5_cex :
    QuickMerge qEnvC qOptC = (QMRet.value none, [QMErr.createErr "d"], []) ∧
    (quickWorkerPhase qEnvC qOptC).queue = ["x", "y"] := by
  refine ⟨?_, by decide⟩
  decide

/-- C5 (amended): when the destination cannot be created, the concurrent
merge reports `DestinationError` on the error sink, writes nothing to
the destination and returns `nil`; the check runs only after jobs are
dispatched (and, absent a panic, after the workers have drained their
sources), so it is neither pre-flight nor fatal to the run's return
value. -/
theorem claim_C5 (env : Env) (opt : MergeOption) (he : opt.errChan = true)
    (hc : env.createOk = false)
    (hnp : opt.goroutine = 0 ∨
      ((quickWorkerPhase env opt).panicked = false ∧
        (quickWorkerPhase env opt).queueClosed = false)) :
    (QuickMerge env opt).1 = QMRet.value none ∧
      (QuickMerge env opt).2.2 = [] ∧
      QMErr.createErr opt.dstPath ∈ (QuickMerge env opt).2.1 := by
  rw [QuickMerge, if_neg (by simp [he])]
  by_cases hg : opt.goroutine = 0
  · rw [if_pos hg, if_pos hc]
    exact ⟨rfl, rfl, by simp⟩
  · rcases hnp with hg' | ⟨hp, hq⟩
    · exact absurd hg' hg
    · rw [if_neg hg]
      simp [hp, hq, hc]

theorem claim_C5_witness :
    (qOptC.errChan = true ∧ qEnvC.createOk = false ∧
      ((quickWorkerPhase qEnvC qOptC).panicked = false ∧
        (quickWorkerPhase qEnvC qOptC).queueClosed = false)) ∧
    ((QuickMerge qEnvC qOptC).1 = QMRet.value none ∧
      (QuickMerge qEnvC qOptC).2.2 = [] ∧
      QMErr.createErr qOptC.dstPath ∈ (QuickMerge qEnvC qOptC).2.1) :=
  ⟨⟨by decide, by decide, by decide⟩,
    claim_C5 qEnvC qOptC (by decide) (by decide) (Or.inr (by decide))⟩

/-- C6 (counterexample): `QuickMerge` never checks the time strategy: a
configuration with a nil `GetTime` and an error channel runs to
completion and returns `nil`, not `NEED_TIMEHANDLER`. -/
theorem claim_C6_cex :
    qOptN.getTime = none ∧
    QuickMerge qEnvA qOptN = (QMRet.value none, [], ["x", "y"]) :=
  ⟨rfl, by decide⟩

/-- C6 (amended): a nil time strategy is rejected (with
`NEED_TIMEHANDLER`, before any work) by the ordered merge only; the
concurrent merge never returns `NEED_TIMEHANDLER` — its only
configuration check is the error channel, rejected with `NEED_ERRCHAN`
before any work. -/
theorem claim_C6 :
    (∀ (env : Env) (opt : MergeOption), opt.getTime = none →
      MergeByOption env opt =
        ⟨some MergeErr.needTimeHandler, [], []⟩) ∧
    (∀ (env : Env) (opt : MergeOption), opt.errChan = false →
      QuickMerge env opt = (QMRet.value (some MergeErr.needErrChan), [], [])) ∧
    (∀ (env : Env) (opt : MergeOption),
      (QuickMerge env opt).1 ≠ QMRet.value (some MergeErr.needTimeHandler)) := by
  refine ⟨?_, ?_, ?_⟩
  · intro env opt hgt
    rw [MergeByOption, hgt]
  · intro env opt he
    rw [QuickMerge, if_pos he]
  · intro env opt
    by_cases he : opt.errChan = true
    · rcases QuickMerge_shape env opt he with h | h <;> rw [h] <;> simp
    · rw [QuickMerge, if_pos (by simpa using he)]
      simp

theorem claim_C6_witness :
    ((MergeByOption qEnvA { srcPath := ["s2"] } =
        ⟨some MergeErr.needTimeHandler, [], []⟩) ∧
      QuickMerge qEnvA { qOptA with errChan := false } =
        (QMRet.value (some MergeErr.needErrChan), [], []) ∧
      (QuickMerge qEnvA qOptA).1 ≠ QMRet.value (some MergeErr.needTimeHandler)) :=
  ⟨claim_C6.1 qEnvA { srcPath := ["s2"] } rfl,
    claim_C6.2.1 qEnvA { qOptA with errChan := false } rfl,
    claim_C6.2.2 qEnvA qOptA⟩

/-- C7 (counterexample): the empty line `""` is a record of source 2 on
which the time strategy returns `SKIP`, yet the run writes `""` to the
output: the `STOP`-with-nil-error on source 1's `"s"` lets that source's
cursor reach the heap still holding the zero-value line `""`, which is
then flushed — so a skipped record does appear, byte-for-byte, in the
output. -/
theorem claim_C7_cex :
    (gt7 "").2.1 = Action.skip ∧ ("" : Line) ∈ [("" : Line)] ∧
    merge [["s"], [""]] gt7 none = ([(0, "")], none) ∧
    ("" : Line) ∈ (merge [["s"], [""]] gt7 none).1.map Prod.snd := by
  refine ⟨by decide, by decide, run_gt7, ?_⟩
  rw [run_gt7]
  simp

/-- C7 (amended): a `SKIP` from the time strategy — or from the filter
strategy after a non-`SKIP` non-`STOP` time result — discards the record
and the scan continues with the next record of the same source (the time
strategy re-invoked on it); on every run, aborting and
nil-error-`STOP` runs included, each output record is either the cursor
zero value `""` or the accepted line of a source record on which neither
strategy returned `SKIP` (nor `STOP`): the record itself with no filter,
the filter's rewrite of it with one.  In particular, with no filter, a
record on which the time strategy returns `SKIP` never appears in the
output unless it is the zero-value record `""`. -/
theorem claim_C7 :
    (∀ (fu : FileReader) (l : Line) (rest : List Line),
      (fu.getTime l).2.1 = .skip →
      readLineAux fu (l :: rest) = readLineAux fu rest) ∧
    (∀ (fu : FileReader) (f : FilterHandler) (l : Line) (rest : List Line),
      fu.filter = some f →
      (fu.getTime l).2.1 ≠ .skip → (fu.getTime l).2.1 ≠ .stop →
      (f fu.filename l).2.1 = .skip →
      readLineAux fu (l :: rest) = readLineAux fu rest) ∧
    (∀ (readers : List (List Line)) (gt : TimeHandler) (fl : Option FilterHandler),
      ∀ p ∈ (merge readers gt fl).1,
        p.2 = "" ∨ ∃ src ∈ readers, ∃ x ∈ src, AcceptedFrom gt fl x p.2) ∧
    (∀ (readers : List (List Line)) (gt : TimeHandler) (l : Line) (t : Int),
      (gt l).2.1 = .skip → (t, l) ∈ (merge readers gt none).1 → l = "") := by
  refine ⟨?_, ?_, ?_, ?_⟩
  · intro fu l rest hskip
    rw [readLineAux]
    rcases hg : fu.getTime l with ⟨tm, act, err⟩
    rw [hg] at hskip
    simp only [] at hskip ⊢
    rw [if_pos (by rw [hskip])]
  · intro fu f l rest hf hskip hstop hfskip
    rw [readLineAux]
    rcases hg : fu.getTime l with ⟨tm, act, err⟩
    rw [hg] at hskip hstop
    simp only [] at hskip hstop ⊢
    rw [if_neg hskip, if_neg hstop, hf]
    simp only []
    rcases hf2 : f fu.filename l with ⟨nl, act2, e2⟩
    rw [hf2] at hfskip
    simp only [] at hfskip ⊢
    rw [if_pos (by rw [hfskip])]
  · intro readers gt fl
    exact merge_lineSourced readers gt fl
  · intro readers gt l t hskip hmem
    rcases merge_lineSourced readers gt none (t, l) hmem with h | ⟨src, hsrc, x, hx, hacc⟩
    · exact h
    · exfalso
      obtain ⟨h1, h2, h3⟩ := hacc
      rcases h3 with ⟨-, hlx⟩ | ⟨f, hf, -⟩
      · have hlx2 : l = x := hlx
        rw [← hlx2] at h1
        exact h1 hskip
      · exact Option.noConfusion hf

theorem claim_C7_witness :
    (u1.getTime "").2.1 = .skip ∧
    readLineAux u1 ["", "s"] = readLineAux u1 ["s"] :=
  ⟨by decide, claim_C7.1 u1 "" ["s"] (by decide)⟩

/-- C8: `MergeByOption` triggers source deletion exactly when the run
returns success and `DeleteSrc` is set; every error path (missing time
strategy, open failure, create failure, merge error) leaves the sources
in place, and deletion disabled never deletes. -/
theorem claim_C8 (env : Env) (opt : MergeOption) :
    (MergeByOption env opt).deleted =
      (if (MergeByOption env opt).res = none ∧ opt.deleteSrc = true
       then opt.srcPath else []) := by
  rcases hgt : opt.getTime with _ | gt
  · have h : MergeByOption env opt = ⟨some .needTimeHandler, [], []⟩ := by
      rw [MergeByOption, hgt]
    rw [h]
    simp
  · rcases hos : openScanners env opt.srcPath with e | scanners
    · have h : MergeByOption env opt = ⟨some e, [], []⟩ := by
        rw [MergeByOption, hgt]
        simp only []
        rw [hos]
      rw [h]
      simp
    · by_cases hdw : ¬ opt.dstWriter = true ∧ ¬ env.createOk = true
      · have h : MergeByOption env opt = ⟨some (.createFail opt.dstPath), [], []⟩ := by
          rw [MergeByOption, hgt]
          simp only []
          rw [hos]
          simp only []
          rw [if_pos hdw]
        rw [h]
        simp
      · rcases hm : merge scanners gt opt.filter with ⟨out, e⟩
        cases e with
        | some err =>
            have h : MergeByOption env opt = ⟨some (.handler err), out, []⟩ := by
              rw [MergeByOption, hgt]
              simp only []
              rw [hos]
              simp only []
              rw [if_neg hdw, hm]
            rw [h]
            simp
        | none =>
            have h : MergeByOption env opt =
                ⟨none, out, if opt.deleteSrc = true then opt.srcPath else []⟩ := by
              rw [MergeByOption, hgt]
              simp only []
              rw [hos]
              simp only []
              rw [if_neg hdw, hm]
            rw [h]
            by_cases hds : opt.deleteSrc = true
            · simp [hds]
            · simp [hds]

/-- C9: a `STOP` with a nil error makes `readLine` return success with
the cursor's `timestamp`, `line` and `eof` untouched (only the scanner
advanced); in the merge the cursor is then pushed back into the heap and
its already-written record is flushed a second time, as the `gtSN` run
shows. -/
theorem claim_C9 :
    (∀ (fu : FileReader) (l : Line) (rest : List Line) (t : Int),
      fu.stream = l :: rest → fu.getTime l = (t, Action.stop, none) →
      readLine fu = ({ fu with stream := rest }, none)) ∧
    gtSN "s" = (0, Action.stop, none) ∧
    merge [["a", "s"]] gtSN none = ([(5, "a"), (5, "a")], none) := by
  refine ⟨?_, by decide, run_gtSN⟩
  intro fu l rest t hs hg
  rw [readLine, hs, readLineAux, hg]
  simp

theorem claim_C9_witness :
    rA.stream = ["s"] ∧ rA.getTime "s" = (0, Action.stop, none) ∧
    readLine rA = ({ rA with stream := [] }, none) :=
  ⟨rfl, by decide, claim_C9.1 rA "s" [] 0 rfl (by decide)⟩

/-- C10: `QuickMerge` returns `NEED_ERRCHAN` exactly when the error
channel is absent; with it present the return value is always `nil`
whenever the call returns at all, and runtime failures — source open,
destination creation, record write — are reported only on the error
channel (open failures during dispatch, creation failure before the
writer loop, write failures record by record), never through the return
value. -/
theorem claim_C10 :
    (∀ (env : Env) (opt : MergeOption), opt.errChan = false →
      QuickMerge env opt = (QMRet.value (some MergeErr.needErrChan), [], [])) ∧
    (∀ (env : Env) (opt : MergeOption), opt.errChan = true →
      (QuickMerge env opt).1 = QMRet.value none ∨
        (QuickMerge env opt).1 = QMRet.noReturn) ∧
    (∀ (env : Env) (opt : MergeOption) (p : String), opt.errChan = true →
      p ∈ opt.srcPath → env.fs p = none →
      QMErr.openErr p ∈ (QuickMerge env opt).2.1) ∧
    (∀ (env : Env) (opt : MergeOption), opt.errChan = true → env.createOk = false →
      (QuickMerge env opt).1 = QMRet.value none →
      QMErr.createErr opt.dstPath ∈ (QuickMerge env opt).2.1) ∧
    (∀ (env : Env) (q : List Line) (line : Line), line ∈ q →
      env.writeOk line = false →
      QMErr.writeErr line ∈ (drainQueue env q).1 ∧ line ∉ (drainQueue env q).2) := by
  refine ⟨?_, ?_, ?_, ?_, ?_⟩
  · intro env opt he
    rw [QuickMerge, if_pos he]
  · intro env opt he
    exact QuickMerge_shape env opt he
  · intro env opt p he hp hfs
    obtain ⟨t, ht⟩ := QuickMerge_errs_extend env opt he
    rw [ht]
    exact List.mem_append_left _ (dispatch_openErr env opt.srcPath p hp hfs)
  · intro env opt he hc hres
    rw [QuickMerge, if_neg (by simp [he])] at hres ⊢
    by_cases hg : opt.goroutine = 0
    · rw [if_pos hg, if_pos hc]
      simp
    · rw [if_neg hg] at hres ⊢
      by_cases hp : (quickWorkerPhase env opt).panicked = true
      · simp [hp] at hres
      · rw [Bool.not_eq_true] at hp
        by_cases hq : (quickWorkerPhase env opt).queueClosed = true
        · simp [hp, hq] at hres
        · rw [Bool.not_eq_true] at hq
          simp [hp, hq, hc]
  · intro env q line hmem hw
    have hkey : ∀ (p : List Line) (y : Line), y ∈ (drainQueue env p).2 →
        env.writeOk y = true := by
      intro p
      induction p with
      | nil => intro y hy; simp [drainQueue] at hy
      | cons x rest ih =>
          intro y hy
          simp only [drainQueue] at hy
          by_cases hx : env.writeOk x = true
          · rw [if_pos hx] at hy
            simp only [] at hy
            rcases List.mem_cons.mp hy with rfl | hh
            · exact hx
            · exact ih y hh
          · rw [if_neg hx] at hy
            exact ih y hy
    refine ⟨?_, ?_⟩
    · induction q with
      | nil => simp at hmem
      | cons x rest ih =>
          simp only [drainQueue]
          rcases List.mem_cons.mp hmem with rfl | hh
          · rw [if_neg (by simp [hw])]
            simp
          · by_cases hx : env.writeOk x = true
            · rw [if_pos hx]
              exact ih hh
            · rw [if_neg hx]
              exact List.mem_cons_of_mem _ (ih hh)
    · intro hcontra
      have := hkey q line hcontra
      rw [hw] at this
      exact Bool.false_ne_true this

end Logmerge
